import Mathlib

/-!
Verification of the Snowman dataflow analyzer

A shallow embedding of `src/nc/core/ir/dflow/DataflowAnalyzer.cpp` (the
dataflow analyzer of the Snowman decompiler) together with theorems about
the claims of its specification.

The analyzer file itself is embedded faithfully, function by function:
the fixpoint driver `analyze`, the statement executor, the term evaluator,
`setMemoryLocation`, `mergeReachingValues`, `executeUnaryOperator`,
`executeBinaryOperator` and the two `apply` transfer functions.

The primitive modules the analyzer uses (`AbstractValue`, `Value`,
`MemoryLocation`, `ReachingDefinitions`, the `Architecture` queries) are
not part of the analyzer's translation unit; they are modelled from the
specification's data-model section (§3), as indicated in their doc
comments.
-/

namespace DF

/-! Byte order and memory locations -/

/-- Modelled from the spec: `Architecture::byteOrder()` returns
LittleEndian or BigEndian. -/
inductive ByteOrder where
  | LittleEndian
  | BigEndian
deriving DecidableEq

/-- Modelled from the spec: memory domains. `MEMORY` and `STACK` are the
domains the analyzer treats specially; all remaining domains (register
banks, flags, ...) are collapsed into `OTHER n`. -/
inductive MemoryDomain where
  | MEMORY
  | STACK
  | OTHER (n : Nat)
deriving DecidableEq

/-- Modelled from the spec: a `MemoryLocation` is a triple
`(domain, addr_in_bits, size_in_bits)`; the default-constructed location
(empty, used when a dereference is unresolvable) has size 0. -/
structure MemoryLocation where
  domain : MemoryDomain
  addr : Int
  size : Nat
deriving DecidableEq

namespace MemoryLocation

/-- The default-constructed (empty/invalid) `MemoryLocation()`. -/
def empty : MemoryLocation := ⟨MemoryDomain.MEMORY, 0, 0⟩

/-- The `operator bool` conversion: a location is non-empty iff its size is non-zero. -/
def toBool (l : MemoryLocation) : Bool := l.size != 0

/-- One-past-the-end bit address. -/
def endAddr (l : MemoryLocation) : Int := l.addr + l.size

/-- Modelled from the spec: `a.covers(b)` iff same domain and
`[b.addr, b.endAddr) ⊆ [a.addr, a.endAddr)`. -/
def covers (a b : MemoryLocation) : Bool :=
  a.domain == b.domain && decide (a.addr ≤ b.addr) && decide (b.endAddr ≤ a.endAddr)

end MemoryLocation

/-! Abstract values

Modelled from the spec: a fixed-width bit-lattice.  Each bit of a value of
width `size` can be unknown (bottom), known-zero, known-one, or
nondeterministic (top).  We represent the lattice by two bit masks:
`zeroBits` collects the bits that may be 0 and `oneBits` the bits that may
be 1; a bit present in both masks is nondeterministic, a bit present in
neither is unknown.  `merge` is the pointwise join (union of both masks).
-/

/-- The mask `bitMask n` is the mask of the `n` low bits (`2^n - 1`). -/
def bitMask (n : Nat) : Nat := 2 ^ n - 1

/-- The shift `bitShift m k` shifts the mask `m` left by `k` bits; a negative `k`
shifts right. -/
def bitShift (m : Nat) (k : Int) : Nat :=
  if 0 ≤ k then m <<< k.toNat else m >>> (-k).toNat

/-- Modelled from the spec: the bit-lattice of partial knowledge about a
bit pattern of width `size`. -/
structure AbstractValue where
  size : Nat
  zeroBits : Nat
  oneBits : Nat
deriving DecidableEq

namespace AbstractValue

/-- The bottom abstract value (no size, nothing known): the state of every
term's value before the first pass. -/
def bottom : AbstractValue := ⟨0, 0, 0⟩

/-- The value `AbstractValue(size, -1, -1)`: every bit nondeterministic. -/
def nondet (sz : Nat) : AbstractValue := ⟨sz, bitMask sz, bitMask sz⟩

/-- The abstract value of a concrete constant `v` of width `sz`. -/
def ofConstant (sz v : Nat) : AbstractValue :=
  ⟨sz, bitMask sz ^^^ v % 2 ^ sz, v % 2 ^ sz⟩

/-- Pointwise join: union of both masks; the width is the larger of the
two widths. -/
def merge (a b : AbstractValue) : AbstractValue :=
  ⟨max a.size b.size, a.zeroBits ||| b.zeroBits, a.oneBits ||| b.oneBits⟩

/-- A value is concrete iff every bit in `[0, size)` is known and no bit
is nondeterministic. -/
def isConcrete (a : AbstractValue) : Bool :=
  (a.zeroBits ||| a.oneBits == bitMask a.size) && (a.zeroBits &&& a.oneBits == 0)

/-- A value is nondeterministic iff some bit may be both 0 and 1. -/
def isNondeterministic (a : AbstractValue) : Bool :=
  a.zeroBits &&& a.oneBits != 0

/-- The reading `asConcrete().value()`: the unsigned value of a concrete abstract
value (its one-bits). -/
def asConcreteValue (a : AbstractValue) : Nat := a.oneBits

/-- The reading `asConcrete().signedValue()`: the two's-complement reading of a
concrete abstract value. -/
def asConcreteSigned (a : AbstractValue) : Int :=
  if a.size != 0 && a.oneBits.testBit (a.size - 1) then
    (a.oneBits : Int) - 2 ^ a.size
  else
    (a.oneBits : Int)

/-- The operation `shift(k)`: move the value `k` bits towards the high end (negative
`k`: towards the low end). -/
def shift (a : AbstractValue) (k : Int) : AbstractValue :=
  ⟨a.size, bitShift a.zeroBits k, bitShift a.oneBits k⟩

/-- The operation `project(mask)`: retain only the bits set in `mask`; all other bits
become unknown. -/
def project (a : AbstractValue) (mask : Nat) : AbstractValue :=
  ⟨a.size, a.zeroBits &&& mask, a.oneBits &&& mask⟩

/-- The operation `resize(w)`: crop to the `w` low bits. -/
def resize (a : AbstractValue) (w : Nat) : AbstractValue :=
  ⟨w, a.zeroBits &&& bitMask w, a.oneBits &&& bitMask w⟩

/-- The information order of the lattice: `le a b` iff every bit of
knowledge recorded in `a` is also recorded in `b` (both masks of `a` are
sub-masks of the corresponding masks of `b`). -/
def le (a b : AbstractValue) : Prop :=
  a.zeroBits &&& b.zeroBits = a.zeroBits ∧ a.oneBits &&& b.oneBits = a.oneBits

instance (a b : AbstractValue) : Decidable (le a b) := by
  unfold le; infer_instance

end AbstractValue

/-! Per-term values

Modelled from the spec (§3 `Value`): the current abstract value plus two
tri-states, *is-stack-offset* (Yes(k) / No / Unknown) and *is-product*.
`makeStackOffset k` asserts Yes(k), `makeNotStackOffset` asserts No; both
assertions are sticky, and when both have been asserted, No wins.
-/

structure Value where
  av : AbstractValue
  soYes : Bool
  soNo : Bool
  soOffset : Int
  prodYes : Bool
  prodNo : Bool
deriving DecidableEq

namespace Value

/-- The initial per-term value: bottom abstract value, both tri-states
Unknown. -/
def initial : Value := ⟨AbstractValue.bottom, false, false, 0, false, false⟩

def setAbstractValue (v : Value) (a : AbstractValue) : Value := { v with av := a }

def makeStackOffset (v : Value) (k : Int) : Value :=
  { v with soYes := true, soOffset := k }

def makeNotStackOffset (v : Value) : Value := { v with soNo := true }

/-- Yes has been asserted and No has not: the value is the stack pointer
plus `stackOffset`. -/
def isStackOffset (v : Value) : Bool := v.soYes && !v.soNo

def isNotStackOffset (v : Value) : Bool := v.soNo

def stackOffset (v : Value) : Int := v.soOffset

def makeProduct (v : Value) : Value := { v with prodYes := true }

def makeNotProduct (v : Value) : Value := { v with prodNo := true }

def isProduct (v : Value) : Bool := v.prodYes && !v.prodNo

def isNotProduct (v : Value) : Bool := v.prodNo

end Value

/-! Reaching definitions

Modelled from the spec (§3 `ReachingDefinitions`): a set of
`(MemoryLocation, Term)` pairs, grouped into *chunks* — one chunk per
sub-range of memory sharing the same set of defining terms — kept ordered
by address.  Terms are identified by their numeric id.
-/

/-- A chunk: a memory range together with the list of terms defining it. -/
abbrev Chunk := MemoryLocation × List Nat

/-- Insert a chunk into a list of chunks kept ordered by address. -/
def insertChunk (c : Chunk) : List Chunk → List Chunk
  | [] => [c]
  | d :: ds =>
    if c.1.addr ≤ d.1.addr then c :: d :: ds else d :: insertChunk c ds

/-- Merge one chunk into a chunk list: a chunk at the same location has
its defining-term sets united; otherwise the chunk is inserted at its
address-ordered position. -/
def mergeChunkInto : List Chunk → Chunk → List Chunk
  | [], c => [c]
  | d :: ds, c =>
    if d.1 = c.1 then (d.1, d.2 ∪ c.2) :: ds
    else if c.1.addr < d.1.addr then c :: d :: ds
    else d :: mergeChunkInto ds c

structure ReachingDefinitions where
  chunks : List Chunk
deriving DecidableEq

namespace ReachingDefinitions

def emptyDefs : ReachingDefinitions := ⟨[]⟩

def isEmpty (rd : ReachingDefinitions) : Bool := rd.chunks.isEmpty

/-- Modelled from the spec: `merge(other)` — union of pairs, union of
defining terms within coinciding chunks. -/
def merge (rd other : ReachingDefinitions) : ReachingDefinitions :=
  ⟨other.chunks.foldl mergeChunkInto rd.chunks⟩

/-- Modelled from the spec: `addDefinition(L, T)` inserts `(L, T)`,
killing any existing pair whose location is wholly covered by `L` and
contributed by a single prior write; partially overlapping chunks
coexist. -/
def addDefinition (rd : ReachingDefinitions) (l : MemoryLocation) (t : Nat) :
    ReachingDefinitions :=
  ⟨insertChunk (l, [t])
    (rd.chunks.filter (fun c => !(l.covers c.1 && c.2.length == 1)))⟩

/-- Modelled from the spec: `killDefinitions(L)` removes all pairs whose
location lies within `L`. -/
def killDefinitions (rd : ReachingDefinitions) (l : MemoryLocation) :
    ReachingDefinitions :=
  ⟨rd.chunks.filter (fun c => !l.covers c.1)⟩

/-- Modelled from the spec: `filterOut(pred)` removes the pairs for which
the predicate holds. -/
def filterOut (rd : ReachingDefinitions) (p : MemoryLocation → Nat → Bool) :
    ReachingDefinitions :=
  ⟨rd.chunks.filterMap (fun c =>
    let ts := c.2.filter (fun t => !p c.1 t)
    if ts.isEmpty then none else some (c.1, ts))⟩

/-- Modelled from the spec: `project(L, out)` extracts exactly the chunks
that lie within `L`. -/
def project (rd : ReachingDefinitions) (l : MemoryLocation) :
    ReachingDefinitions :=
  ⟨rd.chunks.filter (fun c => l.covers c.1)⟩

end ReachingDefinitions

/-! The dataflow store and the architecture -/

/-- Replace-or-append update of an association list. -/
def assocSet {α : Type} (l : List (Nat × α)) (k : Nat) (v : α) : List (Nat × α) :=
  match l with
  | [] => [(k, v)]
  | (k', v') :: t => if k' = k then (k, v) :: t else (k', v') :: assocSet t k v

/-- Lookup in an association list with a default. -/
def assocGet {α : Type} (dflt : α) (l : List (Nat × α)) (k : Nat) : α :=
  match l with
  | [] => dflt
  | (k', v') :: t => if k' = k then v' else assocGet dflt t k

/-- The output store (`Dataflow`): mappings from term id to `Value`,
`MemoryLocation` and `ReachingDefinitions`.  Lookups of unmapped terms
yield the default entries, as `getValue`/`getDefinitions`/
`getMemoryLocation` create default entries on demand in the source. -/
structure Dataflow where
  term2value : List (Nat × Value)
  term2location : List (Nat × MemoryLocation)
  term2definitions : List (Nat × ReachingDefinitions)
deriving DecidableEq

namespace Dataflow

def emptyStore : Dataflow := ⟨[], [], []⟩

def getValue (df : Dataflow) (t : Nat) : Value :=
  assocGet Value.initial df.term2value t

def setValue (df : Dataflow) (t : Nat) (v : Value) : Dataflow :=
  { df with term2value := assocSet df.term2value t v }

def getMemoryLocation (df : Dataflow) (t : Nat) : MemoryLocation :=
  assocGet MemoryLocation.empty df.term2location t

def setMemoryLocation (df : Dataflow) (t : Nat) (l : MemoryLocation) : Dataflow :=
  { df with term2location := assocSet df.term2location t l }

def getDefinitions (df : Dataflow) (t : Nat) : ReachingDefinitions :=
  assocGet ReachingDefinitions.emptyDefs df.term2definitions t

def setDefinitions (df : Dataflow) (t : Nat) (rd : ReachingDefinitions) : Dataflow :=
  { df with term2definitions := assocSet df.term2definitions t rd }

end Dataflow

/-- Modelled from the spec: the two architecture queries the analyzer
makes — the byte order and the classification of a location as global
memory. -/
structure Architecture where
  byteOrder : ByteOrder
  isGlobalMemory : MemoryLocation → Bool

/-! Terms and operators -/

/-- The constant `CHAR_BIT`: bits per byte. -/
def CHAR_BIT : Nat := 8

inductive IntrinsicKind where
  | UNKNOWN
  | UNDEFINED
  | ZERO_STACK_OFFSET
  | REACHING_SNAPSHOT
  | INSTRUCTION_ADDRESS
  | NEXT_INSTRUCTION_ADDRESS
deriving DecidableEq

inductive UnaryOperatorKind where
  | NOT
  | NEGATION
  | SIGN_EXTEND
  | ZERO_EXTEND
  | TRUNCATE
deriving DecidableEq

inductive BinaryOperatorKind where
  | AND | OR | XOR | SHL | SHR | SAR
  | ADD | SUB | MUL
  | SIGNED_DIV | SIGNED_REM | UNSIGNED_DIV | UNSIGNED_REM
  | EQUAL
  | SIGNED_LESS | SIGNED_LESS_OR_EQUAL | UNSIGNED_LESS | UNSIGNED_LESS_OR_EQUAL
deriving DecidableEq

/-- A term of the IR.  Each term carries a numeric id (standing for the
term object's identity, used as the key of the dataflow store) and, for
memory-accessing terms, the `isRead`/`isWrite`/`isKill` access flags of
the source. -/
inductive Term where
  | intConst (id : Nat) (value : Nat) (size : Nat)
  | intrinsic (id : Nat) (kind : IntrinsicKind) (size : Nat)
      (instrAddr instrSize : Nat)
  | memoryLocationAccess (id : Nat) (loc : MemoryLocation)
      (isRead isWrite isKill : Bool)
  | dereference (id : Nat) (address : Term) (domain : MemoryDomain) (size : Nat)
      (isRead isWrite isKill : Bool)
  | unaryOp (id : Nat) (kind : UnaryOperatorKind) (operand : Term) (size : Nat)
  | binaryOp (id : Nat) (kind : BinaryOperatorKind) (left right : Term) (size : Nat)
  | choice (id : Nat) (preferred dflt : Term)

namespace Term

def id : Term → Nat
  | intConst i _ _ => i
  | intrinsic i _ _ _ _ => i
  | memoryLocationAccess i _ _ _ _ => i
  | dereference i _ _ _ _ _ _ => i
  | unaryOp i _ _ _ => i
  | binaryOp i _ _ _ _ => i
  | choice i _ _ => i

end Term

/-! Operator transfer functions on abstract values

`DataflowAnalyzer::apply` delegates to the operators of `AbstractValue`,
which live outside the analyzer's translation unit.  The versions here
are modelled from the spec: each operator lifts its concrete semantics,
producing the exact result on concrete operands and the fully
nondeterministic value otherwise (with bitwise NOT and TRUNCATE computed
exactly on the lattice).
-/

namespace AbstractValue

/-- Bitwise NOT is exact on the bit lattice: it swaps the two masks. -/
def bnot (a : AbstractValue) : AbstractValue := ⟨a.size, a.oneBits, a.zeroBits⟩

def negation (a : AbstractValue) : AbstractValue :=
  if a.isConcrete then ofConstant a.size (2 ^ a.size - a.asConcreteValue)
  else nondet a.size

def signExtend (a : AbstractValue) (w : Nat) : AbstractValue :=
  if a.isConcrete then ofConstant w ((a.asConcreteSigned % (2 ^ w : Int)).toNat)
  else nondet w

def zeroExtend (a : AbstractValue) (w : Nat) : AbstractValue :=
  if a.isConcrete then ofConstant w a.asConcreteValue
  else nondet w

end AbstractValue

/-- The transfer `DataflowAnalyzer::apply(const UnaryOperator*, a)`. -/
def unaryApply (kind : UnaryOperatorKind) (a : AbstractValue) (sz : Nat) :
    AbstractValue :=
  match kind with
  | .NOT => a.bnot
  | .NEGATION => a.negation
  | .SIGN_EXTEND => a.signExtend sz
  | .ZERO_EXTEND => a.zeroExtend sz
  | .TRUNCATE => a.resize sz

/-- The concrete semantics of a binary operator on the unsigned readings
`va`, `vb` (widths `a.size`, `b.size`), producing a result of width `w`.
Modelled from the spec's operator list; division by zero yields the
nondeterministic value. -/
def binaryApplyConcrete (kind : BinaryOperatorKind) (a b : AbstractValue) :
    AbstractValue :=
  let va := a.asConcreteValue
  let vb := b.asConcreteValue
  let w := max a.size b.size
  let bool1 := fun (c : Bool) => AbstractValue.ofConstant 1 (if c then 1 else 0)
  match kind with
  | .AND => AbstractValue.ofConstant w (va &&& vb)
  | .OR => AbstractValue.ofConstant w (va ||| vb)
  | .XOR => AbstractValue.ofConstant w (va ^^^ vb)
  | .SHL => AbstractValue.ofConstant a.size (va <<< vb)
  | .SHR => AbstractValue.ofConstant a.size (va >>> vb)
  | .SAR => AbstractValue.ofConstant a.size
      ((Int.fdiv a.asConcreteSigned (2 ^ vb) % (2 ^ a.size : Int)).toNat)
  | .ADD => AbstractValue.ofConstant w (va + vb)
  | .SUB => AbstractValue.ofConstant w (va + (2 ^ w - vb % 2 ^ w))
  | .MUL => AbstractValue.ofConstant w (va * vb)
  | .SIGNED_DIV =>
    if vb = 0 then AbstractValue.nondet w
    else AbstractValue.ofConstant w
      ((Int.tdiv a.asConcreteSigned b.asConcreteSigned % (2 ^ w : Int)).toNat)
  | .SIGNED_REM =>
    if vb = 0 then AbstractValue.nondet w
    else AbstractValue.ofConstant w
      ((Int.tmod a.asConcreteSigned b.asConcreteSigned % (2 ^ w : Int)).toNat)
  | .UNSIGNED_DIV =>
    if vb = 0 then AbstractValue.nondet w else AbstractValue.ofConstant w (va / vb)
  | .UNSIGNED_REM =>
    if vb = 0 then AbstractValue.nondet w else AbstractValue.ofConstant w (va % vb)
  | .EQUAL => bool1 (va == vb)
  | .SIGNED_LESS => bool1 (decide (a.asConcreteSigned < b.asConcreteSigned))
  | .SIGNED_LESS_OR_EQUAL => bool1 (decide (a.asConcreteSigned ≤ b.asConcreteSigned))
  | .UNSIGNED_LESS => bool1 (decide (va < vb))
  | .UNSIGNED_LESS_OR_EQUAL => bool1 (decide (va ≤ vb))

/-- The transfer `DataflowAnalyzer::apply(const BinaryOperator*, a, b)`. -/
def binaryApply (kind : BinaryOperatorKind) (a b : AbstractValue) : AbstractValue :=
  if a.isConcrete && b.isConcrete then binaryApplyConcrete kind a b
  else AbstractValue.nondet (max a.size b.size)

/-- The value update both operator executors perform:
`value->setAbstractValue(apply(...).merge(value->abstractValue()))`. -/
def operatorValueUpdate (df : Dataflow) (tid : Nat) (fresh : AbstractValue) :
    Dataflow :=
  let value := df.getValue tid
  df.setValue tid (value.setAbstractValue (fresh.merge value.av))

/-- The stack-offset part of `DataflowAnalyzer::executeBinaryOperator`
(the `switch` over the operator kind that computes the stack offset). -/
def binaryStackOffsetTransfer (kind : BinaryOperatorKind)
    (leftValue rightValue value : Value) : Value :=
  match kind with
  | .ADD =>
    let value :=
      if leftValue.isStackOffset then
        if rightValue.av.isConcrete then
          value.makeStackOffset (leftValue.stackOffset + rightValue.av.asConcreteSigned)
        else if rightValue.av.isNondeterministic then value.makeNotStackOffset
        else value
      else value
    let value :=
      if rightValue.isStackOffset then
        if leftValue.av.isConcrete then
          value.makeStackOffset (rightValue.stackOffset + leftValue.av.asConcreteSigned)
        else if leftValue.av.isNondeterministic then value.makeNotStackOffset
        else value
      else value
    if leftValue.isNotStackOffset && rightValue.isNotStackOffset then
      value.makeNotStackOffset
    else value
  | .SUB =>
    if leftValue.isStackOffset && rightValue.av.isConcrete then
      value.makeStackOffset (leftValue.stackOffset - rightValue.av.asConcreteSigned)
    else if leftValue.isNotStackOffset || rightValue.av.isNondeterministic then
      value.makeNotStackOffset
    else value
  | .AND =>
    /- Sometimes used for getting aligned stack pointer values. -/
    if leftValue.isStackOffset && rightValue.av.isConcrete then
      value.makeStackOffset
        (Int.land leftValue.stackOffset (Int.ofNat rightValue.av.asConcreteValue))
    else if rightValue.isStackOffset && leftValue.av.isConcrete then
      value.makeStackOffset
        (Int.land rightValue.stackOffset (Int.ofNat leftValue.av.asConcreteValue))
    else if (leftValue.av.isNondeterministic && leftValue.isNotStackOffset)
        || (rightValue.av.isNondeterministic && rightValue.isNotStackOffset) then
      value.makeNotStackOffset
    else value
  | _ => value.makeNotStackOffset

/-- The product part of `DataflowAnalyzer::executeBinaryOperator`. -/
def binaryProductTransfer (kind : BinaryOperatorKind) (value : Value) : Value :=
  match kind with
  | .MUL => value.makeProduct
  | .SHL => value.makeProduct
  | _ => value.makeNotProduct

/-- The flag part of `DataflowAnalyzer::executeUnaryOperator`: copy the
operand's tri-states for the resizing operators, otherwise assert the
negative flags. -/
def unaryFlagTransfer (kind : UnaryOperatorKind) (operandValue value : Value) :
    Value :=
  match kind with
  | .SIGN_EXTEND | .ZERO_EXTEND | .TRUNCATE =>
    let value :=
      if operandValue.isNotStackOffset then value.makeNotStackOffset
      else if operandValue.isStackOffset then
        value.makeStackOffset operandValue.stackOffset
      else value
    if operandValue.isNotProduct then value.makeNotProduct
    else if operandValue.isProduct then value.makeProduct
    else value
  | _ => value.makeNotStackOffset.makeNotProduct

/-! The function mergeReachingValues -/

/-- The body of the inner loop of `mergeReachingValues`: merge into the
accumulator the abstract values of one chunk's defining terms, shifted to
the term's position (endian-aware) and projected through the chunk's
mask. -/
def mergeContribution (arch : Architecture) (df : Dataflow)
    (termLocation : MemoryLocation) (acc : AbstractValue) (chunk : Chunk) :
    AbstractValue :=
  let mask := bitMask chunk.1.size
  let mask :=
    if arch.byteOrder = ByteOrder.LittleEndian then
      bitShift mask (chunk.1.addr - termLocation.addr)
    else
      bitShift mask (termLocation.endAddr - chunk.1.endAddr)
  chunk.2.foldl (fun acc d =>
    let definitionLocation := df.getMemoryLocation d
    let definitionAbstractValue := (df.getValue d).av
    let definitionAbstractValue :=
      if arch.byteOrder = ByteOrder.LittleEndian then
        definitionAbstractValue.shift (definitionLocation.addr - termLocation.addr)
      else
        definitionAbstractValue.shift (termLocation.endAddr - definitionLocation.endAddr)
    let definitionAbstractValue := definitionAbstractValue.project mask
    acc.merge definitionAbstractValue) acc

/-- The lower-bits heuristic of `mergeReachingValues`: the set of
definitions that supply the low-order bits of the term's value —
little-endian: the front chunk when it starts at the term location's
address; big-endian: the back chunk when it ends at the term location's
end address; otherwise none. -/
def lowerBitsDefinitions (arch : Architecture) (definitions : ReachingDefinitions)
    (termLocation : MemoryLocation) : Option (List Nat) :=
  if arch.byteOrder = ByteOrder.LittleEndian then
    match definitions.chunks.head? with
    | some c => if c.1.addr = termLocation.addr then some c.2 else none
    | none => none
  else
    match definitions.chunks.getLast? with
    | some c => if c.1.endAddr = termLocation.endAddr then some c.2 else none
    | none => none

/-- One step of the flag-merging loop of `mergeReachingValues`: copy one
definition's stack-offset and product tri-states into the term's value. -/
def stackFlagStep (dv : Value) (v : Value) : Value :=
  let v :=
    if dv.isNotStackOffset then v.makeNotStackOffset
    else if dv.isStackOffset then v.makeStackOffset dv.stackOffset
    else v
  if dv.isNotProduct then v.makeNotProduct
  else if dv.isProduct then v.makeProduct
  else v

/-- The flag-merging loop of `mergeReachingValues` over the lower-bits
definitions.  The source reads each definition's value from the live
store, whose only in-flight entry is the term's own; a self-definition
therefore observes the value being folded. -/
def stackFlagsFold (df : Dataflow) (tid : Nat) (ds : List Nat) (v : Value) :
    Value :=
  ds.foldl (fun v d =>
    let dv := if d == tid then v else df.getValue d
    stackFlagStep dv v) v

/-- The function `DataflowAnalyzer::mergeReachingValues` (term of id `tid` and size
`tsize`). -/
def mergeReachingValues (arch : Architecture) (df : Dataflow) (tid tsize : Nat)
    (termLocation : MemoryLocation) (definitions : ReachingDefinitions) :
    Dataflow :=
  if definitions.isEmpty then df
  else
    let termValue := df.getValue tid
    let termAbstractValue :=
      definitions.chunks.foldl (mergeContribution arch df termLocation) termValue.av
    let termValue := termValue.setAbstractValue (termAbstractValue.resize tsize)
    let df := df.setValue tid termValue
    match lowerBitsDefinitions arch definitions termLocation with
    | none => df
    | some ds => df.setValue tid (stackFlagsFold df tid ds termValue)

/-! The function setMemoryLocation -/

/-- The function `DataflowAnalyzer::setMemoryLocation` for a term of id `tid`, size
`tsize` and access flags `isR`/`isW`/`isK`. -/
def setMemoryLocation (arch : Architecture) (tid tsize : Nat)
    (isR isW isK : Bool) (newMemoryLocation : MemoryLocation)
    (ctx : ReachingDefinitions) (df : Dataflow) :
    ReachingDefinitions × Dataflow :=
  let oldMemoryLocation := df.getMemoryLocation tid
  let df :=
    if oldMemoryLocation ≠ newMemoryLocation then
      df.setMemoryLocation tid newMemoryLocation
    else df
  let ctx :=
    if oldMemoryLocation ≠ newMemoryLocation ∧ oldMemoryLocation.toBool ∧ isW then
      ctx.filterOut (fun _ d => d == tid)
    else ctx
  if newMemoryLocation.toBool && !arch.isGlobalMemory newMemoryLocation then
    let df :=
      if isR then
        mergeReachingValues arch
          (df.setDefinitions tid (ctx.project newMemoryLocation))
          tid tsize newMemoryLocation (ctx.project newMemoryLocation)
      else df
    let ctx := if isW then ctx.addDefinition newMemoryLocation tid else ctx
    let ctx := if isK then ctx.killDefinitions newMemoryLocation else ctx
    (ctx, df)
  else
    if isR && oldMemoryLocation.toBool then
      (ctx, df.setDefinitions tid ReachingDefinitions.emptyDefs)
    else (ctx, df)

/-! The term evaluator -/

/-- The evaluator `DataflowAnalyzer::execute(const Term*, ExecutionContext&)`.  The
state is the pair of the context's reaching definitions and the dataflow
store. -/
def executeTerm (arch : Architecture) :
    Term → ReachingDefinitions × Dataflow → ReachingDefinitions × Dataflow
  | Term.intConst tid v sz, st =>
    let value := st.2.getValue tid
    let value := value.setAbstractValue (AbstractValue.ofConstant sz v)
    let value := value.makeNotStackOffset
    let value := value.makeNotProduct
    (st.1, st.2.setValue tid value)
  | Term.intrinsic tid kind sz instrAddr instrSize, st =>
    match kind with
    | IntrinsicKind.UNKNOWN | IntrinsicKind.UNDEFINED =>
      let value := st.2.getValue tid
      let value := value.setAbstractValue (AbstractValue.nondet sz)
      let value := value.makeNotStackOffset
      let value := value.makeNotProduct
      (st.1, st.2.setValue tid value)
    | IntrinsicKind.ZERO_STACK_OFFSET =>
      let value := st.2.getValue tid
      let value := value.setAbstractValue (AbstractValue.nondet sz)
      let value := value.makeStackOffset 0
      let value := value.makeNotProduct
      (st.1, st.2.setValue tid value)
    | IntrinsicKind.REACHING_SNAPSHOT =>
      (st.1, st.2.setDefinitions tid st.1)
    | IntrinsicKind.INSTRUCTION_ADDRESS =>
      let value := st.2.getValue tid
      let value := value.setAbstractValue (AbstractValue.ofConstant sz instrAddr)
      let value := value.makeNotStackOffset
      let value := value.makeNotProduct
      (st.1, st.2.setValue tid value)
    | IntrinsicKind.NEXT_INSTRUCTION_ADDRESS =>
      let value := st.2.getValue tid
      let value :=
        value.setAbstractValue (AbstractValue.ofConstant sz (instrAddr + instrSize))
      let value := value.makeNotStackOffset
      let value := value.makeNotProduct
      (st.1, st.2.setValue tid value)
  | Term.memoryLocationAccess tid loc isR isW isK, st =>
    setMemoryLocation arch tid loc.size isR isW isK loc st.1 st.2
  | Term.dereference tid address domain sz isR isW isK, st =>
    let st := executeTerm arch address st
    let addressValue := st.2.getValue address.id
    if addressValue.av.isConcrete then
      if domain = MemoryDomain.MEMORY then
        setMemoryLocation arch tid sz isR isW isK
          ⟨domain, (addressValue.av.asConcreteValue : Int) * CHAR_BIT, sz⟩ st.1 st.2
      else
        setMemoryLocation arch tid sz isR isW isK
          ⟨domain, (addressValue.av.asConcreteValue : Int), sz⟩ st.1 st.2
    else if addressValue.isStackOffset then
      setMemoryLocation arch tid sz isR isW isK
        ⟨MemoryDomain.STACK, addressValue.stackOffset * CHAR_BIT, sz⟩ st.1 st.2
    else
      setMemoryLocation arch tid sz isR isW isK MemoryLocation.empty st.1 st.2
  | Term.unaryOp tid kind operand sz, st =>
    let st := executeTerm arch operand st
    let operandValue := st.2.getValue operand.id
    let df := operatorValueUpdate st.2 tid (unaryApply kind operandValue.av sz)
    let value := df.getValue tid
    (st.1, df.setValue tid (unaryFlagTransfer kind operandValue value))
  | Term.binaryOp tid kind left right sz, st =>
    let st := executeTerm arch right (executeTerm arch left st)
    let leftValue := st.2.getValue left.id
    let rightValue := st.2.getValue right.id
    let df := operatorValueUpdate st.2 tid (binaryApply kind leftValue.av rightValue.av)
    let value := df.getValue tid
    let value := binaryStackOffsetTransfer kind leftValue rightValue value
    let value := binaryProductTransfer kind value
    (st.1, df.setValue tid value)
  | Term.choice tid preferred dflt, st =>
    let st := executeTerm arch dflt (executeTerm arch preferred st)
    if !(st.2.getDefinitions preferred.id).isEmpty then
      (st.1, st.2.setValue tid (st.2.getValue preferred.id))
    else
      (st.1, st.2.setValue tid (st.2.getValue dflt.id))

/-! The statement executor -/

/-- A statement of the IR.  The `CALLBACK` variant of the source invokes
an arbitrary external hook and is not modelled. -/
inductive Statement where
  | inlineAssembly
  | assignment (left right : Term)
  | jump (cond thenAddr elseAddr : Option Term)
  | call (target : Term)
  | ret
  | touch (t : Term)

/-- The executor `DataflowAnalyzer::execute(const Statement*, ExecutionContext&)`. -/
def executeStatement (arch : Architecture) (stmt : Statement)
    (st : ReachingDefinitions × Dataflow) : ReachingDefinitions × Dataflow :=
  match stmt with
  | Statement.inlineAssembly => st
  | Statement.assignment left right =>
    let st := executeTerm arch right st
    executeTerm arch left st
  | Statement.jump cond thenAddr elseAddr =>
    let st := match cond with
      | some c => executeTerm arch c st
      | none => st
    let st := match thenAddr with
      | some t => executeTerm arch t st
      | none => st
    match elseAddr with
    | some e => executeTerm arch e st
    | none => st
  | Statement.call target => executeTerm arch target st
  | Statement.ret => st
  | Statement.touch t => executeTerm arch t st

/-! The fixpoint driver -/

/-- A basic block: an id, the ids of its CFG predecessors, and its
statements in order. -/
structure Block where
  id : Nat
  preds : List Nat
  stmts : List Statement

/-- The driver's mutable state: the per-block out-definitions map and the
dataflow store. -/
structure AnalyzeState where
  outDefs : List (Nat × ReachingDefinitions)
  df : Dataflow

/-- One iteration of the abstract-interpretation loop over all basic
blocks (the body of the `while` of `DataflowAnalyzer::analyze`), followed
by the global re-filter of `term2definitions`.  Returns the updated state
and whether any block's out-definitions changed. -/
def passOnce (arch : Architecture) (blocks : List Block) (st : AnalyzeState) :
    AnalyzeState × Bool :=
  let notCovered := fun (df : Dataflow) (mloc : MemoryLocation) (t : Nat) =>
    !(df.getMemoryLocation t).covers mloc
  let r := blocks.foldl
    (fun (acc : AnalyzeState × Bool) (b : Block) =>
      let st := acc.1
      /- Merge reaching definitions from predecessors. -/
      let ctx := b.preds.foldl
        (fun c p =>
          c.merge (assocGet ReachingDefinitions.emptyDefs st.outDefs p))
        ReachingDefinitions.emptyDefs
      /- Remove definitions that do not cover the location they define. -/
      let ctx := ctx.filterOut (notCovered st.df)
      /- Execute all the statements in the basic block. -/
      let res := b.stmts.foldl
        (fun s stmt => executeStatement arch stmt s) (ctx, st.df)
      /- Something has changed? -/
      if assocGet ReachingDefinitions.emptyDefs st.outDefs b.id ≠ res.1 then
        (⟨assocSet st.outDefs b.id res.1, res.2⟩, true)
      else
        (⟨st.outDefs, res.2⟩, acc.2))
    (st, false)
  let st := r.1
  let changed := r.2
  /- Some terms might have changed their addresses.  Filter again. -/
  let df := st.df
  let df :=
    { df with
      term2definitions :=
        df.term2definitions.map (fun p => (p.1, p.2.filterOut (notCovered df))) }
  (⟨st.outDefs, df⟩, changed)

/-- The one-pass step function of the per-block fold of `passOnce`, named
for use in theorems. -/
def passStep (arch : Architecture) (acc : AnalyzeState × Bool) (b : Block) :
    AnalyzeState × Bool :=
  let st := acc.1
  let ctx := b.preds.foldl
    (fun c p =>
      c.merge (assocGet ReachingDefinitions.emptyDefs st.outDefs p))
    ReachingDefinitions.emptyDefs
  let ctx := ctx.filterOut (fun mloc t =>
    !(st.df.getMemoryLocation t).covers mloc)
  let res := b.stmts.foldl
    (fun s stmt => executeStatement arch stmt s) (ctx, st.df)
  if assocGet ReachingDefinitions.emptyDefs st.outDefs b.id ≠ res.1 then
    (⟨assocSet st.outDefs b.id res.1, res.2⟩, true)
  else
    (⟨st.outDefs, res.2⟩, acc.2)

/-- The outer loop of `DataflowAnalyzer::analyze`.  `warned` records the
emission of the non-convergence warning; `trace` instruments the
per-iteration change flag (`true` iff some block's out-definitions
changed in that iteration).  The source increments `nfixpoints` at the
top of each iteration and resets it to zero at every changed block, which
amounts to: incremented when no block changed, zero otherwise. -/
structure AnalyzeResult (σ : Type) where
  niterations : Nat
  warned : Bool
  state : σ
  trace : List Bool

/-- The fixpoint loop: run `passFn` while fewer than three consecutive
iterations were stable, breaking with a warning when the iteration count
reaches 30.  The cancellation poll may abort the analysis by raising; it
does not otherwise affect the loop and is not modelled. -/
def analyzeLoop {σ : Type} (passFn : σ → σ × Bool) (s : σ)
    (niterations nfixpoints : Nat) (trace : List Bool) : AnalyzeResult σ :=
  if nfixpoints < 3 then
    if 30 ≤ niterations + 1 then
      ⟨niterations + 1, true, (passFn s).1, trace ++ [(passFn s).2]⟩
    else
      analyzeLoop passFn (passFn s).1 (niterations + 1)
        (if (passFn s).2 then 0 else nfixpoints + 1) (trace ++ [(passFn s).2])
  else
    ⟨niterations, false, s, trace⟩
termination_by 30 - niterations
decreasing_by
  simp only [not_le] at *
  omega

/-- The driver `DataflowAnalyzer::analyze`: the fixpoint loop over the function's
basic blocks.  The post-loop cleanup of disappeared terms (only reachable
through the unmodelled `CALLBACK` statements) is not included. -/
def analyze (arch : Architecture) (blocks : List Block) (st : AnalyzeState) :
    AnalyzeResult AnalyzeState :=
  analyzeLoop (passOnce arch blocks) st 0 0 []

/-! Theorems

The fixpoint loop (C1)
-/

/-- Invariant-carrying specification of `analyzeLoop`: starting below the
iteration cap with a stability streak consistent with the trace, the loop
returns after at most 30 iterations; it warns exactly when the cap is
reached, and a warning-free exit means the trace ends in three
consecutive unchanged iterations. -/
theorem analyzeLoop_spec {σ : Type} (passFn : σ → σ × Bool) :
    ∀ (fuel niterations nfixpoints : Nat) (s : σ) (trace : List Bool),
      30 - niterations = fuel → niterations < 30 → nfixpoints ≤ 3 →
      List.replicate nfixpoints false <:+ trace →
      trace.length = niterations →
      (analyzeLoop passFn s niterations nfixpoints trace).niterations ≤ 30 ∧
      (analyzeLoop passFn s niterations nfixpoints trace).trace.length =
        (analyzeLoop passFn s niterations nfixpoints trace).niterations ∧
      ((analyzeLoop passFn s niterations nfixpoints trace).warned = true →
        (analyzeLoop passFn s niterations nfixpoints trace).niterations = 30) ∧
      ((analyzeLoop passFn s niterations nfixpoints trace).warned = false →
        List.replicate 3 false <:+ (analyzeLoop passFn s niterations nfixpoints trace).trace) := by
  intro fuel
  induction fuel with
  | zero =>
    intro niterations nfixpoints s trace hfuel hlt
    omega
  | succ k ih =>
    intro niterations nfixpoints s trace hfuel hlt hfix hsuf hlen
    rw [analyzeLoop]
    by_cases h3 : nfixpoints < 3
    · simp only [h3, if_true]
      by_cases hcap : 30 ≤ niterations + 1
      · simp only [hcap, if_true]
        exact ⟨by omega, by simp [hlen], fun _ => by omega, fun hw => by simp at hw⟩
      · simp only [hcap, if_false]
        apply ih
        · omega
        · omega
        · by_cases hch : (passFn s).2 = true <;> simp [hch] <;> omega
        · by_cases hch : (passFn s).2 = true
          · simp [hch]
          · have hf : (passFn s).2 = false := by
              revert hch; cases (passFn s).2 <;> simp
            rw [hf]
            simp only [Bool.false_eq_true, if_false]
            rcases hsuf with ⟨u, hu⟩
            exact ⟨u, by rw [List.replicate_succ', ← List.append_assoc, hu]⟩
        · simp [hlen]
    · simp only [h3, if_false]
      have h4 : nfixpoints = 3 := by omega
      subst h4
      exact ⟨by omega, by simpa using hlen, fun hw => by simp at hw, fun _ => hsuf⟩

/-- A change flag threaded through a fold is monotone when every step
keeps a set flag set: once set, it stays set to the end. -/
theorem foldl_flag_mono {σ α : Type} (f : σ × Bool → α → σ × Bool)
    (hmono : ∀ acc a, acc.2 = true → (f acc a).2 = true) :
    ∀ (l : List α) (acc : σ × Bool), acc.2 = true → (l.foldl f acc).2 = true := by
  intro l
  induction l with
  | nil => intro acc h; exact h
  | cons a rest ih => intro acc h; exact ih _ (hmono acc a h)

/-- If every fold step that leaves the change flag clear also leaves an
observed projection of the state unchanged, then a clear final flag means
the projection of the fold result equals that of the initial accumulator. -/
theorem foldl_false_preserves {σ α β : Type} (f : σ × Bool → α → σ × Bool)
    (g : σ → β)
    (hmono : ∀ acc a, acc.2 = true → (f acc a).2 = true)
    (hpres : ∀ acc a, (f acc a).2 = false → g (f acc a).1 = g acc.1) :
    ∀ (l : List α) (acc : σ × Bool),
      (l.foldl f acc).2 = false → g (l.foldl f acc).1 = g acc.1 := by
  intro l
  induction l with
  | nil => intro acc _; rfl
  | cons a rest ih =>
    intro acc h
    simp only [List.foldl_cons] at h ⊢
    by_cases hstep : (f acc a).2 = true
    · rw [foldl_flag_mono f hmono rest _ hstep] at h
      cases h
    · have hf : (f acc a).2 = false := by
        revert hstep; cases (f acc a).2 <;> simp
      rw [ih _ h, hpres acc a hf]

/-- The per-block step of `passOnce` keeps a set change flag set. -/
theorem passStep_flag_mono (arch : Architecture) (acc : AnalyzeState × Bool)
    (b : Block) (h : acc.2 = true) : (passStep arch acc b).2 = true := by
  unfold passStep
  dsimp only
  split
  · rfl
  · exact h

/-- When the per-block step of `passOnce` reports no change, it keeps the
out-definitions map exactly as it was. -/
theorem passStep_stable (arch : Architecture) (acc : AnalyzeState × Bool)
    (b : Block) (h : (passStep arch acc b).2 = false) :
    (passStep arch acc b).1.outDefs = acc.1.outDefs := by
  revert h
  unfold passStep
  dsimp only
  split
  · intro h; simp at h
  · intro _; rfl

/-- When `passOnce` reports no change, no block's out-definitions were
touched: the out-definitions map is returned exactly as it was. -/
theorem passOnce_stable_outDefs (arch : Architecture) (blocks : List Block)
    (st : AnalyzeState) (h : (passOnce arch blocks st).2 = false) :
    (passOnce arch blocks st).1.outDefs = st.outDefs := by
  have h2 : (blocks.foldl (passStep arch) (st, false)).2 = false := h
  have h3 := foldl_false_preserves (passStep arch)
    (fun s => s.outDefs)
    (fun acc b hb => passStep_flag_mono arch acc b hb)
    (fun acc b hb => passStep_stable arch acc b hb)
    blocks (st, false) h2
  exact h3

/-- Claim C1: for every function (list of basic blocks, architecture,
initial state — the cancellation poll being a no-op unless it aborts the
whole analysis by raising), `analyze` terminates: the outer loop runs at
most 30 iterations; when it exits without the warning the last three
iterations are marked unchanged, and an unchanged iteration is exactly
one that left every block's out-definitions as they were; otherwise the
non-convergence warning is emitted and the loop has run exactly 30
iterations. -/
theorem c1_analyze_terminates (arch : Architecture) (blocks : List Block)
    (st : AnalyzeState) :
    (analyze arch blocks st).niterations ≤ 30 ∧
    ((analyze arch blocks st).warned = true →
      (analyze arch blocks st).niterations = 30) ∧
    ((analyze arch blocks st).warned = false →
      List.replicate 3 false <:+ (analyze arch blocks st).trace) ∧
    (∀ s : AnalyzeState, (passOnce arch blocks s).2 = false →
      (passOnce arch blocks s).1.outDefs = s.outDefs) := by
  have h := analyzeLoop_spec (passOnce arch blocks) 30 0 0 st []
    rfl (by omega) (by omega) ⟨[], rfl⟩ rfl
  exact ⟨h.1, h.2.2.1, h.2.2.2, fun s => passOnce_stable_outDefs arch blocks s⟩

/-! Association-list and store lemmas -/

theorem assocGet_set_self {α : Type} (d : α) (l : List (Nat × α)) (k : Nat) (v : α) :
    assocGet d (assocSet l k v) k = v := by
  induction l with
  | nil => simp [assocSet, assocGet]
  | cons p t ih =>
    obtain ⟨k0, v0⟩ := p
    by_cases h : k0 = k
    · simp [assocSet, assocGet, h]
    · simp [assocSet, assocGet, h, ih]

theorem assocGet_set_ne {α : Type} (d : α) (l : List (Nat × α)) (k k' : Nat) (v : α)
    (h : k' ≠ k) : assocGet d (assocSet l k v) k' = assocGet d l k' := by
  have h2 : k ≠ k' := Ne.symm h
  induction l with
  | nil => simp [assocSet, assocGet, h2]
  | cons p t ih =>
    obtain ⟨k0, v0⟩ := p
    by_cases h0 : k0 = k
    · subst h0
      simp [assocSet, assocGet, h2]
    · by_cases h1 : k0 = k' <;> simp [assocSet, assocGet, h, h0, h1, ih]

@[simp] theorem setValue_term2location (df : Dataflow) (t : Nat) (v : Value) :
    (df.setValue t v).term2location = df.term2location := rfl

@[simp] theorem setDefinitions_term2location (df : Dataflow) (t : Nat)
    (rd : ReachingDefinitions) :
    (df.setDefinitions t rd).term2location = df.term2location := rfl

@[simp] theorem setValue_term2definitions (df : Dataflow) (t : Nat) (v : Value) :
    (df.setValue t v).term2definitions = df.term2definitions := rfl

@[simp] theorem setLocation_term2definitions (df : Dataflow) (t : Nat)
    (l : MemoryLocation) :
    (df.setMemoryLocation t l).term2definitions = df.term2definitions := rfl

@[simp] theorem setLocation_term2value (df : Dataflow) (t : Nat)
    (l : MemoryLocation) :
    (df.setMemoryLocation t l).term2value = df.term2value := rfl

@[simp] theorem setDefinitions_term2value (df : Dataflow) (t : Nat)
    (rd : ReachingDefinitions) :
    (df.setDefinitions t rd).term2value = df.term2value := rfl

/-- The function `mergeReachingValues` only writes per-term values: the location map is
untouched. -/
@[simp] theorem mergeReachingValues_term2location (arch : Architecture)
    (df : Dataflow) (tid tsize : Nat) (loc : MemoryLocation)
    (defs : ReachingDefinitions) :
    (mergeReachingValues arch df tid tsize loc defs).term2location =
      df.term2location := by
  unfold mergeReachingValues
  split
  · rfl
  · split <;> rfl

/-- The function `mergeReachingValues` only writes per-term values: the definitions map
is untouched. -/
@[simp] theorem mergeReachingValues_term2definitions (arch : Architecture)
    (df : Dataflow) (tid tsize : Nat) (loc : MemoryLocation)
    (defs : ReachingDefinitions) :
    (mergeReachingValues arch df tid tsize loc defs).term2definitions =
      df.term2definitions := by
  unfold mergeReachingValues
  split
  · rfl
  · split <;> rfl

/-- The store component of `setMemoryLocation` carries the location map of
the step-1 store (the overwrite when the location differs). -/
theorem setMemoryLocation_term2location (arch : Architecture) (tid tsize : Nat)
    (isR isW isK : Bool) (newLoc : MemoryLocation) (ctx : ReachingDefinitions)
    (df : Dataflow) :
    ((setMemoryLocation arch tid tsize isR isW isK newLoc ctx df).2).term2location =
      (if df.getMemoryLocation tid ≠ newLoc then df.setMemoryLocation tid newLoc
       else df).term2location := by
  unfold setMemoryLocation
  simp only [apply_ite (fun p : ReachingDefinitions × Dataflow => p.2),
    apply_ite (fun d : Dataflow => d.term2location),
    setDefinitions_term2location, mergeReachingValues_term2location, ite_self]

/-- After `setMemoryLocation`, the term's stored memory location is the
new location (overwritten when it differed, already equal otherwise). -/
theorem setMemoryLocation_location (arch : Architecture) (tid tsize : Nat)
    (isR isW isK : Bool) (newLoc : MemoryLocation) (ctx : ReachingDefinitions)
    (df : Dataflow) :
    ((setMemoryLocation arch tid tsize isR isW isK newLoc ctx df).2).getMemoryLocation
      tid = newLoc := by
  have h := setMemoryLocation_term2location arch tid tsize isR isW isK newLoc ctx df
  unfold Dataflow.getMemoryLocation
  rw [h]
  split
  · simp [Dataflow.setMemoryLocation, assocGet_set_self]
  · next hcond =>
    push_neg at hcond
    simpa [Dataflow.getMemoryLocation] using hcond

/-! Dereference resolution (C4) -/

/-- Claim C4: for every `Dereference` term, after evaluating the address:
if the address's abstract value is concrete then the term's stored memory
location becomes `(domain, value * CHAR_BIT, size)` when the domain is
`MEMORY` and `(domain, value, size)` otherwise (no byte-to-bit scaling
outside `MEMORY`); otherwise, if the address value is a stack offset `k`,
the location becomes `(STACK, k * CHAR_BIT, size)`; otherwise the
location is set to the empty location. -/
theorem c4_dereference_location (arch : Architecture) (tid : Nat) (address : Term)
    (domain : MemoryDomain) (sz : Nat) (isR isW isK : Bool)
    (st : ReachingDefinitions × Dataflow) :
    ((executeTerm arch (Term.dereference tid address domain sz isR isW isK)
        st).2).getMemoryLocation tid =
      (if ((executeTerm arch address st).2.getValue address.id).av.isConcrete then
        if domain = MemoryDomain.MEMORY then
          ⟨domain,
            (((executeTerm arch address st).2.getValue
              address.id).av.asConcreteValue : Int) * CHAR_BIT, sz⟩
        else
          ⟨domain,
            (((executeTerm arch address st).2.getValue
              address.id).av.asConcreteValue : Int), sz⟩
      else if ((executeTerm arch address st).2.getValue address.id).isStackOffset then
        ⟨MemoryDomain.STACK,
          ((executeTerm arch address st).2.getValue address.id).stackOffset *
            CHAR_BIT, sz⟩
      else MemoryLocation.empty) := by
  simp only [executeTerm]
  split_ifs <;> simp [setMemoryLocation_location]

/-! Choice selection (C8) -/

theorem getValue_setValue_self (df : Dataflow) (t : Nat) (v : Value) :
    (df.setValue t v).getValue t = v := by
  unfold Dataflow.getValue Dataflow.setValue
  exact assocGet_set_self _ _ _ _

/-- Claim C8: for every `Choice` term, after both sub-terms are evaluated
(preferred first, then default), the choice's `Value` equals the
preferred sub-term's `Value` when the preferred sub-term's
reaching-definition set is non-empty, and the default sub-term's `Value`
otherwise. -/
theorem c8_choice_selection (arch : Architecture) (tid : Nat)
    (preferred dflt : Term) (st : ReachingDefinitions × Dataflow) :
    ((executeTerm arch (Term.choice tid preferred dflt) st).2).getValue tid =
      (if ((executeTerm arch dflt (executeTerm arch preferred st)).2.getDefinitions
            preferred.id).isEmpty then
        (executeTerm arch dflt (executeTerm arch preferred st)).2.getValue dflt.id
      else
        (executeTerm arch dflt (executeTerm arch preferred st)).2.getValue
          preferred.id) := by
  simp only [executeTerm]
  cases h : ((executeTerm arch dflt (executeTerm arch preferred st)).2.getDefinitions
      preferred.id).isEmpty <;>
    simp [h, getValue_setValue_self]

/-! Value field lemmas -/

namespace Value

@[simp] theorem makeStackOffset_soYes (v : Value) (k : Int) :
    (v.makeStackOffset k).soYes = true := rfl
@[simp] theorem makeStackOffset_soNo (v : Value) (k : Int) :
    (v.makeStackOffset k).soNo = v.soNo := rfl
@[simp] theorem makeStackOffset_soOffset (v : Value) (k : Int) :
    (v.makeStackOffset k).soOffset = k := rfl
@[simp] theorem makeStackOffset_av (v : Value) (k : Int) :
    (v.makeStackOffset k).av = v.av := rfl
@[simp] theorem makeStackOffset_prodYes (v : Value) (k : Int) :
    (v.makeStackOffset k).prodYes = v.prodYes := rfl
@[simp] theorem makeStackOffset_prodNo (v : Value) (k : Int) :
    (v.makeStackOffset k).prodNo = v.prodNo := rfl

@[simp] theorem makeNotStackOffset_soYes (v : Value) :
    v.makeNotStackOffset.soYes = v.soYes := rfl
@[simp] theorem makeNotStackOffset_soNo (v : Value) :
    v.makeNotStackOffset.soNo = true := rfl
@[simp] theorem makeNotStackOffset_soOffset (v : Value) :
    v.makeNotStackOffset.soOffset = v.soOffset := rfl
@[simp] theorem makeNotStackOffset_av (v : Value) :
    v.makeNotStackOffset.av = v.av := rfl
@[simp] theorem makeNotStackOffset_prodYes (v : Value) :
    v.makeNotStackOffset.prodYes = v.prodYes := rfl
@[simp] theorem makeNotStackOffset_prodNo (v : Value) :
    v.makeNotStackOffset.prodNo = v.prodNo := rfl

@[simp] theorem makeProduct_soYes (v : Value) : v.makeProduct.soYes = v.soYes := rfl
@[simp] theorem makeProduct_soNo (v : Value) : v.makeProduct.soNo = v.soNo := rfl
@[simp] theorem makeProduct_soOffset (v : Value) :
    v.makeProduct.soOffset = v.soOffset := rfl
@[simp] theorem makeProduct_av (v : Value) : v.makeProduct.av = v.av := rfl
@[simp] theorem makeProduct_prodYes (v : Value) : v.makeProduct.prodYes = true := rfl
@[simp] theorem makeProduct_prodNo (v : Value) :
    v.makeProduct.prodNo = v.prodNo := rfl

@[simp] theorem makeNotProduct_soYes (v : Value) :
    v.makeNotProduct.soYes = v.soYes := rfl
@[simp] theorem makeNotProduct_soNo (v : Value) :
    v.makeNotProduct.soNo = v.soNo := rfl
@[simp] theorem makeNotProduct_soOffset (v : Value) :
    v.makeNotProduct.soOffset = v.soOffset := rfl
@[simp] theorem makeNotProduct_av (v : Value) : v.makeNotProduct.av = v.av := rfl
@[simp] theorem makeNotProduct_prodYes (v : Value) :
    v.makeNotProduct.prodYes = v.prodYes := rfl
@[simp] theorem makeNotProduct_prodNo (v : Value) :
    v.makeNotProduct.prodNo = true := rfl

@[simp] theorem setAbstractValue_soYes (v : Value) (a : AbstractValue) :
    (v.setAbstractValue a).soYes = v.soYes := rfl
@[simp] theorem setAbstractValue_soNo (v : Value) (a : AbstractValue) :
    (v.setAbstractValue a).soNo = v.soNo := rfl
@[simp] theorem setAbstractValue_soOffset (v : Value) (a : AbstractValue) :
    (v.setAbstractValue a).soOffset = v.soOffset := rfl
@[simp] theorem setAbstractValue_av (v : Value) (a : AbstractValue) :
    (v.setAbstractValue a).av = a := rfl
@[simp] theorem setAbstractValue_prodYes (v : Value) (a : AbstractValue) :
    (v.setAbstractValue a).prodYes = v.prodYes := rfl
@[simp] theorem setAbstractValue_prodNo (v : Value) (a : AbstractValue) :
    (v.setAbstractValue a).prodNo = v.prodNo := rfl

theorem soNo_false_of_isStackOffset (v : Value) (h : v.isStackOffset = true) :
    v.soNo = false := by
  revert h; unfold isStackOffset; cases v.soNo <;> simp

theorem soYes_true_of_isStackOffset (v : Value) (h : v.isStackOffset = true) :
    v.soYes = true := by
  revert h; unfold isStackOffset; cases v.soYes <;> simp

theorem not_fields_of_isStackOffset_false (v : Value) (h : v.isStackOffset = false) :
    ¬(v.soYes = true ∧ v.soNo = false) := by
  revert h; unfold isStackOffset; cases v.soYes <;> cases v.soNo <;> simp

end Value

theorem AbstractValue.not_concrete_of_nondet (a : AbstractValue)
    (h : a.isNondeterministic = true) : a.isConcrete = false := by
  unfold AbstractValue.isConcrete
  unfold AbstractValue.isNondeterministic at h
  simp only [bne_iff_ne, ne_eq] at h
  simp [h]

/-! Empty reaching definitions frame (C10) -/

/-- Claim C10: if the reaching-definitions set passed to
`mergeReachingValues` is empty, the call returns the store unchanged: in
particular the read term's `Value` — its abstract value, its stack-offset
tri-state and its product tri-state — is exactly what it was before the
call. -/
theorem c10_merge_empty_frame (arch : Architecture) (df : Dataflow)
    (tid tsize : Nat) (loc : MemoryLocation) (definitions : ReachingDefinitions)
    (h : definitions.chunks = []) :
    mergeReachingValues arch df tid tsize loc definitions = df ∧
    (mergeReachingValues arch df tid tsize loc definitions).getValue tid =
      df.getValue tid := by
  have he : definitions.isEmpty = true := by simp [ReachingDefinitions.isEmpty, h]
  constructor <;> simp [mergeReachingValues, he]

/-- Witness for C10 at a concrete input. -/
theorem c10_witness :
    mergeReachingValues ⟨ByteOrder.LittleEndian, fun _ => false⟩ Dataflow.emptyStore
      0 8 MemoryLocation.empty ReachingDefinitions.emptyDefs = Dataflow.emptyStore :=
  (c10_merge_empty_frame ⟨ByteOrder.LittleEndian, fun _ => false⟩ Dataflow.emptyStore
    0 8 MemoryLocation.empty ReachingDefinitions.emptyDefs rfl).1

/-! Membership lemmas for reaching-definition operations -/

theorem covers_self (l : MemoryLocation) : l.covers l = true := by
  simp [MemoryLocation.covers]

theorem insertChunk_mem {c x : Chunk} {l : List Chunk} (h : c ∈ insertChunk x l) :
    c = x ∨ c ∈ l := by
  induction l with
  | nil => simpa [insertChunk] using h
  | cons d ds ih =>
    unfold insertChunk at h
    split at h
    · rcases List.mem_cons.mp h with h1 | h1
      · exact Or.inl h1
      · exact Or.inr h1
    · rcases List.mem_cons.mp h with h1 | h1
      · exact Or.inr (h1 ▸ List.mem_cons_self d ds)
      · rcases ih h1 with h2 | h2
        · exact Or.inl h2
        · exact Or.inr (List.mem_cons_of_mem d h2)

theorem filterOut_mem {rd : ReachingDefinitions} {p : MemoryLocation → Nat → Bool}
    {c : Chunk} (h : c ∈ (rd.filterOut p).chunks) :
    ∃ c0, c0 ∈ rd.chunks ∧ c.1 = c0.1 ∧
      ∀ t, t ∈ c.2 → t ∈ c0.2 ∧ p c.1 t = false := by
  unfold ReachingDefinitions.filterOut at h
  simp only [List.mem_filterMap] at h
  obtain ⟨c0, hc0, hmap⟩ := h
  split at hmap
  · cases hmap
  · cases hmap
    refine ⟨c0, hc0, rfl, fun t ht => ?_⟩
    have := List.mem_filter.mp ht
    exact ⟨this.1, by simpa using this.2⟩

theorem addDefinition_mem {rd : ReachingDefinitions} {l : MemoryLocation} {t : Nat}
    {c : Chunk} (h : c ∈ (rd.addDefinition l t).chunks) :
    c = (l, [t]) ∨ c ∈ rd.chunks := by
  unfold ReachingDefinitions.addDefinition at h
  rcases insertChunk_mem h with h1 | h1
  · exact Or.inl h1
  · exact Or.inr (List.mem_of_mem_filter h1)

theorem killDefinitions_mem {rd : ReachingDefinitions} {l : MemoryLocation}
    {c : Chunk} (h : c ∈ (rd.killDefinitions l).chunks) :
    c ∈ rd.chunks ∧ l.covers c.1 = false := by
  unfold ReachingDefinitions.killDefinitions at h
  have := List.mem_filter.mp h
  exact ⟨this.1, by simpa using this.2⟩

theorem project_mem {rd : ReachingDefinitions} {l : MemoryLocation} {c : Chunk}
    (h : c ∈ (rd.project l).chunks) :
    c ∈ rd.chunks ∧ l.covers c.1 = true := by
  unfold ReachingDefinitions.project at h
  have := List.mem_filter.mp h
  exact ⟨this.1, this.2⟩

/-- No chunk of a context filtered by `definition == term` contains the
term. -/
theorem filterOut_eq_tid {rd : ReachingDefinitions} {tid : Nat} {c : Chunk}
    (h : c ∈ (rd.filterOut (fun _ d => d == tid)).chunks) : tid ∉ c.2 := by
  intro hmem
  obtain ⟨c0, _, _, hall⟩ := filterOut_mem h
  have := (hall tid hmem).2
  simp at this

/-! Stack-offset transfer of binary operators (C6) -/

/-- Claim C6: the stack-offset transfer of `executeBinaryOperator`.  For
`ADD`: an operand that is a stack offset `k` combined with an operand
whose abstract value is concrete `c` (and which is not itself a stack
offset) yields StackOffset(`k + signed c`) when the result value does not
already disclaim; a stack-offset operand combined with a nondeterministic
one yields NotStackOffset; two NotStackOffset operands yield
NotStackOffset.  For `SUB`: a stack-offset left with concrete right gives
StackOffset(`k − signed c`); otherwise a NotStackOffset left or a
nondeterministic right gives NotStackOffset.  For `AND`: a stack-offset
operand with a concrete other operand gives StackOffset(`k & c`), in
either orientation; when neither stack-offset/concrete case applies, an
operand that is both nondeterministic and NotStackOffset gives
NotStackOffset. -/
theorem c6_stack_offset_transfer (l r v : Value) :
    (l.isStackOffset = true → r.av.isConcrete = true → r.isStackOffset = false →
      v.soNo = false →
      (binaryStackOffsetTransfer BinaryOperatorKind.ADD l r v).isStackOffset = true ∧
      (binaryStackOffsetTransfer BinaryOperatorKind.ADD l r v).stackOffset =
        l.stackOffset + r.av.asConcreteSigned) ∧
    (r.isStackOffset = true → l.av.isConcrete = true → l.isStackOffset = false →
      v.soNo = false →
      (binaryStackOffsetTransfer BinaryOperatorKind.ADD l r v).isStackOffset = true ∧
      (binaryStackOffsetTransfer BinaryOperatorKind.ADD l r v).stackOffset =
        r.stackOffset + l.av.asConcreteSigned) ∧
    (l.isStackOffset = true → r.av.isNondeterministic = true →
      (binaryStackOffsetTransfer BinaryOperatorKind.ADD l r v).isNotStackOffset =
        true) ∧
    (r.isStackOffset = true → l.av.isNondeterministic = true →
      (binaryStackOffsetTransfer BinaryOperatorKind.ADD l r v).isNotStackOffset =
        true) ∧
    (l.isNotStackOffset = true → r.isNotStackOffset = true →
      (binaryStackOffsetTransfer BinaryOperatorKind.ADD l r v).isNotStackOffset =
        true) ∧
    (l.isStackOffset = true → r.av.isConcrete = true → v.soNo = false →
      (binaryStackOffsetTransfer BinaryOperatorKind.SUB l r v).isStackOffset = true ∧
      (binaryStackOffsetTransfer BinaryOperatorKind.SUB l r v).stackOffset =
        l.stackOffset - r.av.asConcreteSigned) ∧
    (¬(l.isStackOffset = true ∧ r.av.isConcrete = true) →
      (l.isNotStackOffset = true ∨ r.av.isNondeterministic = true) →
      (binaryStackOffsetTransfer BinaryOperatorKind.SUB l r v).isNotStackOffset =
        true) ∧
    (l.isStackOffset = true → r.av.isConcrete = true → v.soNo = false →
      (binaryStackOffsetTransfer BinaryOperatorKind.AND l r v).isStackOffset = true ∧
      (binaryStackOffsetTransfer BinaryOperatorKind.AND l r v).stackOffset =
        Int.land l.stackOffset (Int.ofNat r.av.asConcreteValue)) ∧
    (r.isStackOffset = true → l.av.isConcrete = true → l.isStackOffset = false →
      v.soNo = false →
      (binaryStackOffsetTransfer BinaryOperatorKind.AND l r v).isStackOffset = true ∧
      (binaryStackOffsetTransfer BinaryOperatorKind.AND l r v).stackOffset =
        Int.land r.stackOffset (Int.ofNat l.av.asConcreteValue)) ∧
    (¬(l.isStackOffset = true ∧ r.av.isConcrete = true) →
      ¬(r.isStackOffset = true ∧ l.av.isConcrete = true) →
      ((l.av.isNondeterministic = true ∧ l.isNotStackOffset = true) ∨
        (r.av.isNondeterministic = true ∧ r.isNotStackOffset = true)) →
      (binaryStackOffsetTransfer BinaryOperatorKind.AND l r v).isNotStackOffset =
        true) := by
  refine ⟨?_, ?_, ?_, ?_, ?_, ?_, ?_, ?_, ?_, ?_⟩
  · intro hl hr hrs hv
    have hno := Value.soNo_false_of_isStackOffset l hl
    have hyes := Value.soYes_true_of_isStackOffset l hl
    have hrs2 := Value.not_fields_of_isStackOffset_false r hrs
    simp [binaryStackOffsetTransfer, hr, hrs2, Value.isStackOffset,
      Value.isNotStackOffset, Value.stackOffset, hno, hyes, hv]
  · intro hr hl hls hv
    have hno := Value.soNo_false_of_isStackOffset r hr
    have hyes := Value.soYes_true_of_isStackOffset r hr
    have hls2 := Value.not_fields_of_isStackOffset_false l hls
    simp [binaryStackOffsetTransfer, hl, hls2, Value.isStackOffset,
      Value.isNotStackOffset, Value.stackOffset, hno, hyes, hv]
  · intro hl hr
    have hrc := AbstractValue.not_concrete_of_nondet r.av hr
    simp only [binaryStackOffsetTransfer, hl, hr, hrc, if_true, if_false,
      Bool.false_eq_true]
    split_ifs <;> simp_all [Value.isNotStackOffset]
  · intro hr hl
    have hlc := AbstractValue.not_concrete_of_nondet l.av hl
    simp only [binaryStackOffsetTransfer, hr, hl, hlc]
    split_ifs <;> simp_all [Value.isNotStackOffset]
  · intro hl hr
    unfold Value.isNotStackOffset at hl hr
    simp [binaryStackOffsetTransfer, hl, hr, Value.isStackOffset,
      Value.isNotStackOffset]
  · intro hl hr hv
    have hno := Value.soNo_false_of_isStackOffset l hl
    have hyes := Value.soYes_true_of_isStackOffset l hl
    simp [binaryStackOffsetTransfer, hl, hr, Value.isStackOffset,
      Value.stackOffset, hno, hyes, hv]
  · intro hcase hside
    have hc : (l.isStackOffset && r.av.isConcrete) = false := by
      cases h1 : l.isStackOffset <;> cases h2 : r.av.isConcrete <;> simp_all
    have hd : l.soNo = true ∨ r.av.isNondeterministic = true := hside
    have hb : (l.soNo || r.av.isNondeterministic) = true := by
      rcases hd with h | h <;> simp [h]
    have hcb : (l.soYes && !l.soNo && r.av.isConcrete) = false := by
      simpa [Value.isStackOffset] using hc
    simp [binaryStackOffsetTransfer, Value.isStackOffset, Value.isNotStackOffset,
      hcb, hb]
  · intro hl hr hv
    have hno := Value.soNo_false_of_isStackOffset l hl
    have hyes := Value.soYes_true_of_isStackOffset l hl
    simp [binaryStackOffsetTransfer, hl, hr, Value.isStackOffset,
      Value.stackOffset, hno, hyes, hv]
  · intro hr hl hls hv
    have hno := Value.soNo_false_of_isStackOffset r hr
    have hyes := Value.soYes_true_of_isStackOffset r hr
    have hls2 := Value.not_fields_of_isStackOffset_false l hls
    simp [binaryStackOffsetTransfer, hr, hl, hls2, Value.isStackOffset,
      Value.stackOffset, hno, hyes, hv]
  · intro hcase1 hcase2 hside
    have hc1 : (l.isStackOffset && r.av.isConcrete) = false := by
      cases h1 : l.isStackOffset <;> cases h2 : r.av.isConcrete <;> simp_all
    have hc2 : (r.isStackOffset && l.av.isConcrete) = false := by
      cases h1 : r.isStackOffset <;> cases h2 : l.av.isConcrete <;> simp_all
    have hd : (l.av.isNondeterministic = true ∧ l.soNo = true) ∨
        (r.av.isNondeterministic = true ∧ r.soNo = true) := hside
    have hb : (l.av.isNondeterministic && l.soNo
        || r.av.isNondeterministic && r.soNo) = true := by
      rcases hd with ⟨h1, h2⟩ | ⟨h1, h2⟩ <;> simp [h1, h2]
    have hc1b : (l.soYes && !l.soNo && r.av.isConcrete) = false := by
      simpa [Value.isStackOffset] using hc1
    have hc2b : (r.soYes && !r.soNo && l.av.isConcrete) = false := by
      simpa [Value.isStackOffset] using hc2
    simp [binaryStackOffsetTransfer, Value.isStackOffset, Value.isNotStackOffset,
      hc1b, hc2b, hb]

/-! Bookkeeping in setMemoryLocation (C7) -/

theorem getDefinitions_setDefinitions_self (df : Dataflow) (t : Nat)
    (rd : ReachingDefinitions) : (df.setDefinitions t rd).getDefinitions t = rd := by
  unfold Dataflow.getDefinitions Dataflow.setDefinitions
  exact assocGet_set_self _ _ _ _

/-- Claim C7: in `setMemoryLocation`: whenever the term's stored location
differs from the new one it is overwritten (the stored location becomes
the new one); if moreover the term is a write that previously had a
non-empty location, every `(L, term)` pair with the term as its defining
term is removed from the context — afterwards a pair defined by the term
can only be the freshly added definition, covered by the new location;
and whenever the new location is empty or classified as global memory and
the term is a read that previously had a non-empty location, the term's
stored reaching-definition set is cleared. -/
theorem c7_set_memory_location (arch : Architecture) (tid tsize : Nat)
    (isR isW isK : Bool) (newLoc : MemoryLocation) (ctx : ReachingDefinitions)
    (df : Dataflow) :
    (df.getMemoryLocation tid ≠ newLoc →
      ((setMemoryLocation arch tid tsize isR isW isK newLoc ctx
          df).2).getMemoryLocation tid = newLoc) ∧
    (df.getMemoryLocation tid ≠ newLoc →
      (df.getMemoryLocation tid).toBool = true → isW = true →
      ∀ c ∈ ((setMemoryLocation arch tid tsize isR isW isK newLoc ctx
          df).1).chunks, tid ∈ c.2 → newLoc.covers c.1 = true) ∧
    ((newLoc.toBool = false ∨ arch.isGlobalMemory newLoc = true) → isR = true →
      (df.getMemoryLocation tid).toBool = true →
      ((setMemoryLocation arch tid tsize isR isW isK newLoc ctx
          df).2).getDefinitions tid = ReachingDefinitions.emptyDefs) := by
  refine ⟨fun _ => setMemoryLocation_location arch tid tsize isR isW isK newLoc ctx df,
    ?_, ?_⟩
  · intro hne hold hw c hc htid
    simp only [setMemoryLocation] at hc
    rw [if_pos (⟨hne, hold, hw⟩ :
      df.getMemoryLocation tid ≠ newLoc ∧
        (df.getMemoryLocation tid).toBool = true ∧ isW = true)] at hc
    split at hc
    · simp only [hw, if_true] at hc
      by_cases hk : isK = true
      · simp only [hk, if_true] at hc
        obtain ⟨hc2, hcov⟩ := killDefinitions_mem hc
        rcases addDefinition_mem hc2 with h1 | h1
        · rw [h1]
          exact covers_self newLoc
        · exact absurd htid (filterOut_eq_tid h1)
      · have hk2 : isK = false := by revert hk; cases isK <;> simp
        simp only [hk2, Bool.false_eq_true, if_false] at hc
        rcases addDefinition_mem hc with h1 | h1
        · rw [h1]
          exact covers_self newLoc
        · exact absurd htid (filterOut_eq_tid h1)
    · split at hc <;> exact absurd htid (filterOut_eq_tid hc)
  · intro hglob hr hold
    have hng : (newLoc.toBool && !arch.isGlobalMemory newLoc) = false := by
      rcases hglob with h | h <;> simp [h]
    unfold setMemoryLocation
    simp only [hng, Bool.false_eq_true, if_false]
    rw [if_pos (by simp [hr, hold] :
      (isR && (df.getMemoryLocation tid).toBool) = true)]
    exact getDefinitions_setDefinitions_self _ _ _

/-- Witness for C7 at a concrete input: a write moving from one stack slot
to another leaves no pair defined by it outside the new location, and a
read whose new location is empty has its stored definitions cleared. -/
theorem c7_witness :
    (∀ c ∈ ((setMemoryLocation ⟨ByteOrder.LittleEndian, fun _ => false⟩ 7 8 false
        true false ⟨MemoryDomain.STACK, 32, 8⟩
        ⟨[(⟨MemoryDomain.STACK, 0, 8⟩, [7])]⟩
        (Dataflow.emptyStore.setMemoryLocation 7
          ⟨MemoryDomain.STACK, 0, 8⟩)).1).chunks,
      7 ∈ c.2 → MemoryLocation.covers ⟨MemoryDomain.STACK, 32, 8⟩ c.1 = true) ∧
    ((setMemoryLocation ⟨ByteOrder.LittleEndian, fun _ => false⟩ 9 8 true false
        false MemoryLocation.empty
        ReachingDefinitions.emptyDefs
        (Dataflow.emptyStore.setMemoryLocation 9
          ⟨MemoryDomain.STACK, 0, 8⟩)).2).getDefinitions 9 =
      ReachingDefinitions.emptyDefs :=
  ⟨(c7_set_memory_location ⟨ByteOrder.LittleEndian, fun _ => false⟩ 7 8 false true
      false ⟨MemoryDomain.STACK, 32, 8⟩ ⟨[(⟨MemoryDomain.STACK, 0, 8⟩, [7])]⟩
      (Dataflow.emptyStore.setMemoryLocation 7 ⟨MemoryDomain.STACK, 0, 8⟩)).2.1
    (by decide) (by decide) rfl,
   (c7_set_memory_location ⟨ByteOrder.LittleEndian, fun _ => false⟩ 9 8 true false
      false MemoryLocation.empty ReachingDefinitions.emptyDefs
      (Dataflow.emptyStore.setMemoryLocation 9 ⟨MemoryDomain.STACK, 0, 8⟩)).2.2
    (Or.inl rfl) rfl (by decide)⟩

/-! Read, write and kill ordering in setMemoryLocation (C9) -/

theorem mergeReachingValues_getDefinitions_setDefinitions (arch : Architecture)
    (x : Dataflow) (tid tsize : Nat) (newLoc : MemoryLocation)
    (p q : ReachingDefinitions) :
    (mergeReachingValues arch (x.setDefinitions tid p) tid tsize newLoc
      q).getDefinitions tid = p := by
  unfold Dataflow.getDefinitions
  rw [mergeReachingValues_term2definitions]
  simp [Dataflow.setDefinitions, assocGet_set_self]

/-- Claim C9: for a non-empty, non-global location, `setMemoryLocation`
applies the read, write and kill effects in that fixed order: a
read-and-write term has the context's definitions projected into its
stored reaching set before its own definition is added, so (when the
incoming context holds no pair defined by the term) it never sees itself
among its reaching definitions from the same visit; and a write-and-kill
term has `killDefinitions` run after `addDefinition`, so the kill removes
the term's own just-inserted definition — afterwards no context pair is
defined by the term or covered by the new location. -/
theorem c9_read_write_kill_order (arch : Architecture) (tid tsize : Nat)
    (isR isW isK : Bool) (newLoc : MemoryLocation) (ctx : ReachingDefinitions)
    (df : Dataflow)
    (hng : (newLoc.toBool && !arch.isGlobalMemory newLoc) = true)
    (hself : ∀ c ∈ ctx.chunks, tid ∉ c.2) :
    (isR = true → isW = true →
      ∀ c ∈ (((setMemoryLocation arch tid tsize isR isW isK newLoc ctx
          df).2).getDefinitions tid).chunks, tid ∉ c.2) ∧
    (isW = true → isK = true →
      ∀ c ∈ ((setMemoryLocation arch tid tsize isR isW isK newLoc ctx
          df).1).chunks, tid ∉ c.2 ∧ newLoc.covers c.1 = false) := by
  constructor
  · intro hr hw c hc
    simp only [setMemoryLocation] at hc
    rw [if_pos hng] at hc
    simp only [hr, if_true] at hc
    rw [mergeReachingValues_getDefinitions_setDefinitions] at hc
    obtain ⟨hc1, _⟩ := project_mem hc
    split at hc1
    · exact filterOut_eq_tid hc1
    · exact hself c hc1
  · intro hw hk c hc
    simp only [setMemoryLocation] at hc
    rw [if_pos hng] at hc
    simp only [hw, hk, if_true] at hc
    obtain ⟨hc2, hcov⟩ := killDefinitions_mem hc
    refine ⟨?_, hcov⟩
    rcases addDefinition_mem hc2 with h1 | h1
    · rw [h1] at hcov
      simp [covers_self] at hcov
    · split at h1
      · exact filterOut_eq_tid h1
      · exact hself c h1

/-- Witness for C9 at a concrete input: a read-write-kill term at a fresh
stack slot. -/
theorem c9_witness :
    (∀ c ∈ (((setMemoryLocation ⟨ByteOrder.LittleEndian, fun _ => false⟩ 3 8 true
        true true ⟨MemoryDomain.STACK, 0, 8⟩ ReachingDefinitions.emptyDefs
        Dataflow.emptyStore).2).getDefinitions 3).chunks, 3 ∉ c.2) ∧
    (∀ c ∈ ((setMemoryLocation ⟨ByteOrder.LittleEndian, fun _ => false⟩ 3 8 true
        true true ⟨MemoryDomain.STACK, 0, 8⟩ ReachingDefinitions.emptyDefs
        Dataflow.emptyStore).1).chunks,
      3 ∉ c.2 ∧ MemoryLocation.covers ⟨MemoryDomain.STACK, 0, 8⟩ c.1 = false) :=
  ⟨(c9_read_write_kill_order ⟨ByteOrder.LittleEndian, fun _ => false⟩ 3 8 true true
      true ⟨MemoryDomain.STACK, 0, 8⟩ ReachingDefinitions.emptyDefs
      Dataflow.emptyStore (by decide)
      (fun c hc => (List.not_mem_nil c hc).elim)).1 rfl rfl,
   (c9_read_write_kill_order ⟨ByteOrder.LittleEndian, fun _ => false⟩ 3 8 true true
      true ⟨MemoryDomain.STACK, 0, 8⟩ ReachingDefinitions.emptyDefs
      Dataflow.emptyStore (by decide)
      (fun c hc => (List.not_mem_nil c hc).elim)).2 rfl rfl⟩

/-! Flag propagation in mergeReachingValues (C5) -/

theorem mem_of_getLast?_eq_some {α : Type} {l : List α} {a : α}
    (h : l.getLast? = some a) : a ∈ l := by
  obtain ⟨hn, heq⟩ := List.mem_getLast?_eq_getLast (Option.mem_def.mpr h)
  rw [heq]
  exact List.getLast_mem hn

/-- One step of the flag fold: the disclaim bit absorbs the definition's
disclaim, the assert bit absorbs the definition's assert, and the offset
is overwritten exactly by a providing definition. -/
theorem stackFlagStep_soFields (dv v : Value) :
    (stackFlagStep dv v).soNo = (v.soNo || dv.isNotStackOffset) ∧
    (stackFlagStep dv v).soYes = (v.soYes || dv.isStackOffset) ∧
    (stackFlagStep dv v).soOffset =
      (if dv.isStackOffset then dv.stackOffset else v.soOffset) := by
  unfold stackFlagStep Value.isNotStackOffset Value.isStackOffset Value.stackOffset
  cases hno : dv.soNo <;> cases hyes : dv.soYes <;> split_ifs <;> simp_all

theorem any_congr {l : List Nat} {p q : Nat → Bool} (h : ∀ x ∈ l, p x = q x) :
    l.any p = l.any q := by
  induction l with
  | nil => rfl
  | cons a t ih =>
    simp only [List.any_cons]
    rw [h a (List.mem_cons_self a t), ih (fun x hx => h x (List.mem_cons_of_mem a hx))]

/-- Complete characterization of the flag-merging fold of
`mergeReachingValues` over the lower-bits definitions: the disclaim bit is
the disjunction of the incoming one with the definitions' disclaim bits;
the assert bit likewise; the offset is the last providing definition's
offset (unchanged when no definition provides one). -/
theorem stackFlagsFold_flags (s : Dataflow) (tid : Nat) (ds : List Nat)
    (h : tid ∉ ds) :
    ∀ v : Value,
      (stackFlagsFold s tid ds v).soNo =
        (v.soNo || ds.any (fun d => (s.getValue d).isNotStackOffset)) ∧
      (stackFlagsFold s tid ds v).soYes =
        (v.soYes || ds.any (fun d => (s.getValue d).isStackOffset)) ∧
      (stackFlagsFold s tid ds v).soOffset =
        (match (ds.filter (fun d => (s.getValue d).isStackOffset)).getLast? with
         | some dl => (s.getValue dl).stackOffset
         | none => v.soOffset) := by
  induction ds with
  | nil => intro v; simp [stackFlagsFold]
  | cons d rest ih =>
    intro v
    have hd : d ≠ tid := fun he => h (he ▸ List.mem_cons_self d rest)
    have hdb : (d == tid) = false := by simp [hd]
    have hrest : tid ∉ rest := fun hm => h (List.mem_cons_of_mem d hm)
    have hfold : stackFlagsFold s tid (d :: rest) v =
        stackFlagsFold s tid rest (stackFlagStep (s.getValue d) v) := by
      unfold stackFlagsFold
      simp only [List.foldl_cons, hdb, Bool.false_eq_true, if_false]
    obtain ⟨h1, h2, h3⟩ := ih hrest (stackFlagStep (s.getValue d) v)
    obtain ⟨hs1, hs2, hs3⟩ := stackFlagStep_soFields (s.getValue d) v
    rw [hfold]
    refine ⟨?_, ?_, ?_⟩
    · rw [h1, hs1, List.any_cons, Bool.or_assoc]
    · rw [h2, hs2, List.any_cons, Bool.or_assoc]
    · rw [h3, hs3, List.filter_cons]
      by_cases hp : (s.getValue d).isStackOffset = true
      · simp only [hp, if_true]
        cases hlast : (rest.filter (fun d => (s.getValue d).isStackOffset)).getLast? with
        | none =>
          have hnil : rest.filter (fun d => (s.getValue d).isStackOffset) = [] :=
            List.getLast?_eq_none_iff.mp hlast
          rw [hnil, List.getLast?_singleton]
        | some x =>
          have hnil : rest.filter (fun d => (s.getValue d).isStackOffset) ≠ [] := by
            intro hh; rw [hh] at hlast; cases hlast
          obtain ⟨y, t, hyt⟩ := List.exists_cons_of_ne_nil hnil
          rw [hyt] at hlast ⊢
          rw [List.getLast?_cons_cons, hlast]
      · have hpf : (s.getValue d).isStackOffset = false := by
          revert hp; cases (s.getValue d).isStackOffset <;> simp
        simp only [hpf, Bool.false_eq_true, if_false]

/-- The flag fold reads definitions other than the term itself from the
underlying store, so updating the term's own entry does not change what
the fold sees. -/
theorem getValue_setValue_of_ne (df : Dataflow) (tid : Nat) (v : Value) (d : Nat)
    (h : d ≠ tid) : (df.setValue tid v).getValue d = df.getValue d := by
  unfold Dataflow.getValue Dataflow.setValue
  exact assocGet_set_ne _ _ _ _ _ h

/-- Claim C5, amended: in `mergeReachingValues`, flag propagation uses the
lower-bits definitions (little-endian: the front chunk when its address
equals the term location's address; big-endian: the back chunk when its
end address equals the term location's end address; otherwise none — in
which case the stack-offset tri-state of the term is left unchanged), and
over that set the net effect is: the disclaim bit becomes set iff it was
set or some lower-bits definition disclaims; the assert bit becomes set
iff it was set or some definition provides an offset; the offset is the
last providing definition's, so the term is a stack offset afterwards iff
(it already asserted or some definition provides) and (it had not already
disclaimed and no definition disclaims).  In particular a providing
definition does **not** give the term a stack offset when another
lower-bits definition disclaims. -/
theorem c5_amended_flag_propagation (arch : Architecture) (df : Dataflow)
    (tid tsize : Nat) (termLoc : MemoryLocation)
    (definitions : ReachingDefinitions)
    (hne : definitions.isEmpty = false) :
    (lowerBitsDefinitions arch definitions termLoc = none →
      ((mergeReachingValues arch df tid tsize termLoc definitions).getValue
          tid).soNo = (df.getValue tid).soNo ∧
      ((mergeReachingValues arch df tid tsize termLoc definitions).getValue
          tid).soYes = (df.getValue tid).soYes ∧
      ((mergeReachingValues arch df tid tsize termLoc definitions).getValue
          tid).soOffset = (df.getValue tid).soOffset) ∧
    (∀ ds, lowerBitsDefinitions arch definitions termLoc = some ds → tid ∉ ds →
      ((mergeReachingValues arch df tid tsize termLoc definitions).getValue
          tid).soNo =
        ((df.getValue tid).soNo ||
          ds.any (fun d => (df.getValue d).isNotStackOffset)) ∧
      ((mergeReachingValues arch df tid tsize termLoc definitions).getValue
          tid).soYes =
        ((df.getValue tid).soYes ||
          ds.any (fun d => (df.getValue d).isStackOffset)) ∧
      ((mergeReachingValues arch df tid tsize termLoc definitions).getValue
          tid).soOffset =
        (match (ds.filter (fun d => (df.getValue d).isStackOffset)).getLast? with
         | some dl => (df.getValue dl).stackOffset
         | none => (df.getValue tid).soOffset)) := by
  unfold mergeReachingValues
  rw [if_neg (by simp [hne])]
  constructor
  · intro hnone
    rw [hnone]
    simp [getValue_setValue_self]
  · intro ds hsome htid
    rw [hsome]
    simp only [getValue_setValue_self]
    obtain ⟨h1, h2, h3⟩ :=
      stackFlagsFold_flags
        (df.setValue tid
          ((df.getValue tid).setAbstractValue
            ((definitions.chunks.foldl (mergeContribution arch df termLoc)
              (df.getValue tid).av).resize tsize)))
        tid ds htid
        ((df.getValue tid).setAbstractValue
          ((definitions.chunks.foldl (mergeContribution arch df termLoc)
            (df.getValue tid).av).resize tsize))
    have hany1 : ds.any (fun d =>
        ((df.setValue tid
          ((df.getValue tid).setAbstractValue
            ((definitions.chunks.foldl (mergeContribution arch df termLoc)
              (df.getValue tid).av).resize tsize))).getValue d).isNotStackOffset) =
        ds.any (fun d => (df.getValue d).isNotStackOffset) := by
      apply any_congr
      intro x hx
      have hxt : x ≠ tid := by rintro rfl; exact htid hx
      rw [getValue_setValue_of_ne _ _ _ _ hxt]
    have hany2 : ds.any (fun d =>
        ((df.setValue tid
          ((df.getValue tid).setAbstractValue
            ((definitions.chunks.foldl (mergeContribution arch df termLoc)
              (df.getValue tid).av).resize tsize))).getValue d).isStackOffset) =
        ds.any (fun d => (df.getValue d).isStackOffset) := by
      apply any_congr
      intro x hx
      have hxt : x ≠ tid := by rintro rfl; exact htid hx
      rw [getValue_setValue_of_ne _ _ _ _ hxt]
    have hfilter : ds.filter (fun d =>
        ((df.setValue tid
          ((df.getValue tid).setAbstractValue
            ((definitions.chunks.foldl (mergeContribution arch df termLoc)
              (df.getValue tid).av).resize tsize))).getValue d).isStackOffset) =
        ds.filter (fun d => (df.getValue d).isStackOffset) := by
      apply List.filter_congr
      intro x hx
      have hxt : x ≠ tid := by rintro rfl; exact htid hx
      rw [getValue_setValue_of_ne _ _ _ _ hxt]
    rw [h1, h2, h3, hany1, hany2, hfilter]
    refine ⟨by simp, by simp, ?_⟩
    cases hlast : (ds.filter (fun d => (df.getValue d).isStackOffset)).getLast? with
    | none => simp
    | some dl =>
      have hmem : dl ∈ ds :=
        List.mem_of_mem_filter (mem_of_getLast?_eq_some hlast)
      have hdt : dl ≠ tid := by rintro rfl; exact htid hmem
      simp only []
      rw [getValue_setValue_of_ne _ _ _ _ hdt]

/-- Witness for C5 (amended) at a concrete input: one providing and one
disclaiming lower-bits definition; the disclaim wins. -/
theorem c5_amended_witness :
    ((mergeReachingValues ⟨ByteOrder.LittleEndian, fun _ => false⟩
        ⟨[(1, ⟨AbstractValue.bottom, true, false, 5, false, false⟩),
          (2, ⟨AbstractValue.bottom, false, true, 0, false, false⟩)],
         [(1, ⟨MemoryDomain.STACK, 0, 8⟩), (2, ⟨MemoryDomain.STACK, 0, 8⟩)], []⟩
        0 8 ⟨MemoryDomain.STACK, 0, 8⟩
        ⟨[(⟨MemoryDomain.STACK, 0, 8⟩, [1, 2])]⟩).getValue 0).soNo = true ∧
    ((mergeReachingValues ⟨ByteOrder.LittleEndian, fun _ => false⟩
        ⟨[(1, ⟨AbstractValue.bottom, true, false, 5, false, false⟩),
          (2, ⟨AbstractValue.bottom, false, true, 0, false, false⟩)],
         [(1, ⟨MemoryDomain.STACK, 0, 8⟩), (2, ⟨MemoryDomain.STACK, 0, 8⟩)], []⟩
        0 8 ⟨MemoryDomain.STACK, 0, 8⟩
        ⟨[(⟨MemoryDomain.STACK, 0, 8⟩, [1, 2])]⟩).getValue 0).soYes = true := by
  have h := (c5_amended_flag_propagation ⟨ByteOrder.LittleEndian, fun _ => false⟩
    ⟨[(1, ⟨AbstractValue.bottom, true, false, 5, false, false⟩),
      (2, ⟨AbstractValue.bottom, false, true, 0, false, false⟩)],
     [(1, ⟨MemoryDomain.STACK, 0, 8⟩), (2, ⟨MemoryDomain.STACK, 0, 8⟩)], []⟩
    0 8 ⟨MemoryDomain.STACK, 0, 8⟩
    ⟨[(⟨MemoryDomain.STACK, 0, 8⟩, [1, 2])]⟩ rfl).2 [1, 2] (by decide) (by decide)
  refine ⟨?_, ?_⟩
  · rw [h.1]; decide
  · rw [h.2.1]; decide

/-- Counterexample to C5 as stated: with lower-bits definitions `[1, 2]`
where definition 1 provides the positive stack offset 5 and definition 2
disclaims, the claim's net effect ("if any lower-bits definition provides
a positive stack-offset the term gets it") demands the term be a stack
offset; in the code the disclaim is sticky and the term is not a stack
offset. -/
theorem c5_counterexample :
    (lowerBitsDefinitions ⟨ByteOrder.LittleEndian, fun _ => false⟩
      ⟨[(⟨MemoryDomain.STACK, 0, 8⟩, [1, 2])]⟩ ⟨MemoryDomain.STACK, 0, 8⟩ =
      some [1, 2]) ∧
    ((⟨[(1, ⟨AbstractValue.bottom, true, false, 5, false, false⟩),
        (2, ⟨AbstractValue.bottom, false, true, 0, false, false⟩)],
       [(1, ⟨MemoryDomain.STACK, 0, 8⟩), (2, ⟨MemoryDomain.STACK, 0, 8⟩)],
       []⟩ : Dataflow).getValue 1).isStackOffset = true ∧
    ((⟨[(1, ⟨AbstractValue.bottom, true, false, 5, false, false⟩),
        (2, ⟨AbstractValue.bottom, false, true, 0, false, false⟩)],
       [(1, ⟨MemoryDomain.STACK, 0, 8⟩), (2, ⟨MemoryDomain.STACK, 0, 8⟩)],
       []⟩ : Dataflow).getValue 1).stackOffset = 5 ∧
    ((mergeReachingValues ⟨ByteOrder.LittleEndian, fun _ => false⟩
        ⟨[(1, ⟨AbstractValue.bottom, true, false, 5, false, false⟩),
          (2, ⟨AbstractValue.bottom, false, true, 0, false, false⟩)],
         [(1, ⟨MemoryDomain.STACK, 0, 8⟩), (2, ⟨MemoryDomain.STACK, 0, 8⟩)], []⟩
        0 8 ⟨MemoryDomain.STACK, 0, 8⟩
        ⟨[(⟨MemoryDomain.STACK, 0, 8⟩, [1, 2])]⟩).getValue 0).isStackOffset =
      false := by
  refine ⟨by decide, by decide, by decide, by decide⟩

/-! Value monotonicity across iterations (C3) -/

theorem and_eq_left_iff_subset (x y : Nat) :
    x &&& y = x ↔ ∀ i, x.testBit i = true → y.testBit i = true := by
  constructor
  · intro h i hx
    have h2 := congrArg (fun n => n.testBit i) h
    simp only [Nat.testBit_land] at h2
    rw [hx] at h2
    simpa using h2
  · intro h
    apply Nat.eq_of_testBit_eq
    intro i
    simp only [Nat.testBit_land]
    cases hx : x.testBit i
    · simp
    · simp [h i hx]

theorem AbstractValue.le_iff (a b : AbstractValue) :
    AbstractValue.le a b ↔
      (∀ i, a.zeroBits.testBit i = true → b.zeroBits.testBit i = true) ∧
      (∀ i, a.oneBits.testBit i = true → b.oneBits.testBit i = true) := by
  unfold AbstractValue.le
  rw [and_eq_left_iff_subset, and_eq_left_iff_subset]

theorem AbstractValue.le_refl (a : AbstractValue) : AbstractValue.le a a :=
  (AbstractValue.le_iff a a).mpr ⟨fun _ h => h, fun _ h => h⟩

theorem AbstractValue.le_trans {a b c : AbstractValue}
    (h1 : AbstractValue.le a b) (h2 : AbstractValue.le b c) :
    AbstractValue.le a c := by
  rw [AbstractValue.le_iff] at *
  exact ⟨fun i hi => h2.1 i (h1.1 i hi), fun i hi => h2.2 i (h1.2 i hi)⟩

theorem AbstractValue.le_merge_left (a b : AbstractValue) :
    AbstractValue.le a (AbstractValue.merge a b) := by
  rw [AbstractValue.le_iff]
  constructor <;> intro i hi <;>
    simp [AbstractValue.merge, Nat.testBit_lor, hi]

/-- A value is below the fold that merges chunk contributions into it. -/
theorem le_foldl_mergeContribution (arch : Architecture) (df : Dataflow)
    (termLoc : MemoryLocation) (chunks : List Chunk) :
    ∀ a : AbstractValue,
      AbstractValue.le a (chunks.foldl (mergeContribution arch df termLoc) a) := by
  have hstep : ∀ (a : AbstractValue) (c : Chunk),
      AbstractValue.le a (mergeContribution arch df termLoc a c) := by
    intro a c
    unfold mergeContribution
    generalize (if arch.byteOrder = ByteOrder.LittleEndian then
      bitShift (bitMask c.1.size) (c.1.addr - termLoc.addr)
      else bitShift (bitMask c.1.size) (termLoc.endAddr - c.1.endAddr)) = mask
    induction c.2 generalizing a with
    | nil => exact AbstractValue.le_refl a
    | cons d rest ih =>
      simp only [List.foldl_cons]
      exact AbstractValue.le_trans (AbstractValue.le_merge_left a _) (ih _)
  intro a
  induction chunks generalizing a with
  | nil => exact AbstractValue.le_refl a
  | cons c rest ih =>
    simp only [List.foldl_cons]
    exact AbstractValue.le_trans (hstep a c) (ih _)

theorem le_resize_of_le_of_lt {a x : AbstractValue} {w : Nat}
    (h : AbstractValue.le a x) (h1 : a.zeroBits < 2 ^ w) (h2 : a.oneBits < 2 ^ w) :
    AbstractValue.le a (x.resize w) := by
  rw [AbstractValue.le_iff] at *
  constructor <;> intro i hi
  · have hiw : i < w := by
      by_contra hge
      rw [Nat.testBit_lt_two_pow (lt_of_lt_of_le h1
        (Nat.pow_le_pow_right (by omega) (by omega)))] at hi
      cases hi
    simp [AbstractValue.resize, Nat.testBit_land, h.1 i hi, bitMask,
      Nat.testBit_two_pow_sub_one, hiw]
  · have hiw : i < w := by
      by_contra hge
      rw [Nat.testBit_lt_two_pow (lt_of_lt_of_le h2
        (Nat.pow_le_pow_right (by omega) (by omega)))] at hi
      cases hi
    simp [AbstractValue.resize, Nat.testBit_land, h.2 i hi, bitMask,
      Nat.testBit_two_pow_sub_one, hiw]

theorem stackFlagStep_av (dv v : Value) : (stackFlagStep dv v).av = v.av := by
  unfold stackFlagStep
  split_ifs <;> simp

theorem stackFlagsFold_av (s : Dataflow) (tid : Nat) (ds : List Nat) :
    ∀ v : Value, (stackFlagsFold s tid ds v).av = v.av := by
  induction ds with
  | nil => intro v; rfl
  | cons d rest ih =>
    intro v
    unfold stackFlagsFold at *
    simp only [List.foldl_cons]
    rw [ih]
    exact stackFlagStep_av _ _

/-- Claim C3, amended: the value-update sites of the operator executors and
of `mergeReachingValues` merge the newly computed information into the
stored abstract value, so at these sites the stored value never loses
information between iterations (is non-decreasing in the lattice).  The
claim's universal statement over *every* term fails because a `Choice`
term copies the selected sub-term's value outright (see the
counterexample). -/
theorem c3_amended_value_monotone (arch : Architecture) (df : Dataflow)
    (tid tsize : Nat) (fresh : AbstractValue) (loc : MemoryLocation)
    (defs : ReachingDefinitions)
    (h1 : (df.getValue tid).av.zeroBits < 2 ^ tsize)
    (h2 : (df.getValue tid).av.oneBits < 2 ^ tsize) :
    AbstractValue.le (df.getValue tid).av
      (((operatorValueUpdate df tid fresh).getValue tid).av) ∧
    AbstractValue.le (df.getValue tid).av
      (((mergeReachingValues arch df tid tsize loc defs).getValue tid).av) := by
  constructor
  · unfold operatorValueUpdate
    rw [getValue_setValue_self]
    simp only [Value.setAbstractValue_av]
    rw [AbstractValue.le_iff]
    constructor <;> intro i hi <;>
      simp [AbstractValue.merge, Nat.testBit_lor, hi]
  · unfold mergeReachingValues
    split
    · exact AbstractValue.le_refl _
    · split
      · rw [getValue_setValue_self]
        simp only [Value.setAbstractValue_av]
        exact le_resize_of_le_of_lt
          (le_foldl_mergeContribution arch df loc defs.chunks _) h1 h2
      · rw [getValue_setValue_self, stackFlagsFold_av]
        simp only [Value.setAbstractValue_av]
        exact le_resize_of_le_of_lt
          (le_foldl_mergeContribution arch df loc defs.chunks _) h1 h2

/-- Witness for C3 (amended) at a concrete input. -/
theorem c3_amended_witness :
    AbstractValue.le ((Dataflow.emptyStore.getValue 0).av)
      (((operatorValueUpdate Dataflow.emptyStore 0
        (AbstractValue.ofConstant 8 5)).getValue 0).av) ∧
    AbstractValue.le ((Dataflow.emptyStore.getValue 0).av)
      (((mergeReachingValues ⟨ByteOrder.LittleEndian, fun _ => false⟩
        Dataflow.emptyStore 0 8 ⟨MemoryDomain.STACK, 0, 8⟩
        ReachingDefinitions.emptyDefs).getValue 0).av) :=
  c3_amended_value_monotone ⟨ByteOrder.LittleEndian, fun _ => false⟩
    Dataflow.emptyStore 0 8 (AbstractValue.ofConstant 8 5)
    ⟨MemoryDomain.STACK, 0, 8⟩ ReachingDefinitions.emptyDefs
    (by decide) (by decide)

/-- The register location of the C3 counterexample scenario. -/
def c3Loc : MemoryLocation := ⟨MemoryDomain.OTHER 0, 0, 8⟩

def c3Arch : Architecture := ⟨ByteOrder.LittleEndian, fun _ => false⟩

/-- Block 0: `x := 1` at the fixed register location. -/
def c3BlockA : Block :=
  ⟨0, [],
    [Statement.assignment (Term.memoryLocationAccess 10 c3Loc false true false)
      (Term.intConst 11 1 8)]⟩

/-- Block 1 (CFG successor of block 0, but first in block order):
`Touch(Choice(read x, const 7))`. -/
def c3BlockB : Block :=
  ⟨1, [0],
    [Statement.touch (Term.choice 20
      (Term.memoryLocationAccess 21 c3Loc true false false)
      (Term.intConst 22 7 8))]⟩

/-- The two-block function of the C3 counterexample; the reading block is
interpreted before the writing one, so the choice's selection flips
between the first and the second iteration. -/
def c3Blocks : List Block := [c3BlockB, c3BlockA]

def c3State1 : AnalyzeState := (passOnce c3Arch c3Blocks ⟨[], Dataflow.emptyStore⟩).1

def c3State2 : AnalyzeState := (passOnce c3Arch c3Blocks c3State1).1

/-- Counterexample to C3 as stated: across the first two iterations of the
fixpoint on `c3Blocks`, the `Choice` term (id 20) holds the concrete value
7 after iteration one and the all-unknown value after iteration two — the
second iteration's value is *not* above the first one's in the lattice,
so the sequence of abstract values at this term is not a non-decreasing
chain (the choice's value is copied, not merged). -/
theorem c3_counterexample :
    (c3State1.df.getValue 20).av = AbstractValue.ofConstant 8 7 ∧
    (c3State2.df.getValue 20).av = ⟨8, 0, 0⟩ ∧
    ¬ AbstractValue.le ((c3State1.df.getValue 20).av)
        ((c3State2.df.getValue 20).av) := by
  refine ⟨by decide, by decide, by decide⟩

/-- Witness for C6 at a concrete input: `StackOffset(5) + concrete 3`
yields `StackOffset(8)`. -/
theorem c6_witness :
    (binaryStackOffsetTransfer BinaryOperatorKind.ADD
      ⟨AbstractValue.bottom, true, false, 5, false, false⟩
      ⟨AbstractValue.ofConstant 8 3, false, false, 0, false, false⟩
      Value.initial).isStackOffset = true ∧
    (binaryStackOffsetTransfer BinaryOperatorKind.ADD
      ⟨AbstractValue.bottom, true, false, 5, false, false⟩
      ⟨AbstractValue.ofConstant 8 3, false, false, 0, false, false⟩
      Value.initial).stackOffset = 8 :=
  (c6_stack_offset_transfer
    ⟨AbstractValue.bottom, true, false, 5, false, false⟩
    ⟨AbstractValue.ofConstant 8 3, false, false, 0, false, false⟩
    Value.initial).1 (by decide) (by decide) (by decide) rfl

end DF
